import Mathlib

/-!
# Semiprime sieve (`semiprimesieve.c`)

A shallow embedding of `semiprimesieve.c` and a verification of its specification.

Machine integers are natural numbers reduced modulo `2^8`, `2^32` or `2^64` at every
place where the C code stores into a `uint8_t`, `uint32_t` or `uint64_t`.  Loops are
structural recursions on a fuel argument; `none` means that the fuel ran out or that
the C code would have had undefined behaviour (division by zero, array index outside
`0..x`).  The three things the program takes from outside the file (the prime sieve
of `Mairsonsprimesieve.c`, the floating point `sqrt`, and the contents of fresh
`malloc` memory) are fields of an environment record.
-/

namespace SemiprimeSieve

/-! ## Data model -/

/-- Number of values of a `uint8_t`. -/
def U8 : Nat := 2 ^ 8

/-- Number of values of a `uint32_t`. -/
def U32 : Nat := 2 ^ 32

/-- Number of values of a `uint64_t`. -/
def U64 : Nat := 2 ^ 64

/-- The two arrays `counts[1+x]` (`uint8_t`) and `products[1+x]` (`uint32_t`),
cell `i` of an array being entry `i` of the list. -/
structure Mem where
  counts : List Nat
  products : List Nat
  deriving DecidableEq, Repr

/-- The world outside `semiprimesieve.c`. -/
structure Env where
  /-- The included prime source: `Mairsonsprimesieve(B, &numprimes)` as the list
  `primes[0..numprimes-1]`. -/
  Mairsonsprimesieve : Nat → List Nat
  /-- The value of `(uint64_t) sqrt(n)`, the floating point seed of `isqrt`. -/
  sqrt : Nat → Nat
  /-- The contents of the cells handed out by `malloc` for `products`. -/
  malloc : Nat → Nat

/-- What a run of `main` shows to the outside. -/
inductive Outcome
  /-- Lines 54-55: the usage text is printed and the process ends with `exit(0)`. -/
  | usage
  /-- Lines 86 and 92: the printed values, then the summary line with
  `numsemiprimes`, `sumsemiprimes` and `x`. -/
  | found (printed : List Nat) (numsemiprimes sumsemiprimes x : Nat)
  deriving DecidableEq, Repr

/-! ## `isqrt` (lines 34-41) -/

/-- The loop of lines 37-39 from the current value `ai`. -/
def isqrtLoop (n : Nat) : Nat → Nat → Option Nat
  | 0, _ => none
  | fuel + 1, ai =>
    if ai = 0 then none
    else if ai ≤ n / ai then
      if (ai + 1) % U64 = 0 then none
      else if (ai + 1) % U64 > n / ((ai + 1) % U64) then some ai
      else isqrtLoop n fuel ((ai + n / ai) % U64 / 2)
    else isqrtLoop n fuel ((ai + n / ai) % U64 / 2)

/-- The function `isqrt`; `seed` is the value of `sqrt(n)` stored into `ai`. -/
def isqrt (seed fuel n : Nat) : Option Nat :=
  if n < 2 then some (n % U32)
  else (isqrtLoop n fuel (seed % U64)).map (fun ai => ai % U32)

/-! ## The sieve (lines 64-83) -/

/-- The loop of lines 66-69: `products[i] = 1` for `i = 1, 2, ..., x`. -/
def initProducts (x : Nat) : Nat → Nat → List Nat → Option (List Nat)
  | 0, _, _ => none
  | fuel + 1, i, products =>
    if products.length ≤ i then none
    else if i = x then some (products.set i 1)
    else initProducts x fuel ((i + 1) % U32) (products.set i 1)

/-- Lines 77-78: `counts[m]++; products[m] *= p;`. -/
def Mem.visit (mem : Mem) (m p : Nat) : Option Mem :=
  match mem.counts[m]?, mem.products[m]? with
  | some c, some q =>
    some { counts := mem.counts.set m ((c + 1) % U8), products := mem.products.set m ((q * p) % U32) }
  | _, _ => none

/-- The loop of lines 76-80 from the current value of `primepowermultiple`. -/
def multiplesLoop (x p primepower : Nat) : Nat → Nat → Mem → Option Mem
  | 0, _, _ => none
  | fuel + 1, primepowermultiple, mem =>
    if primepowermultiple ≤ x then
      match mem.visit primepowermultiple p with
      | none => none
      | some mem1 =>
        multiplesLoop x p primepower fuel ((primepowermultiple + primepower) % U64) mem1
    else some mem

/-- The loop of lines 74-82 from the current value of `primepower`. -/
def powersLoop (x p : Nat) : Nat → Nat → Mem → Option Mem
  | 0, _, _ => none
  | fuel + 1, primepower, mem =>
    if primepower ≤ x then
      match multiplesLoop x p primepower (fuel + 1) primepower mem with
      | none => none
      | some mem1 => powersLoop x p fuel ((primepower * p) % U64) mem1
    else some mem

/-- The loop of lines 72-83 over the remaining entries of `primes`. -/
def primesLoop (x fuel : Nat) : List Nat → Mem → Option Mem
  | [], mem => some mem
  | p :: rest, mem =>
    match powersLoop x p fuel (p % U64) mem with
    | none => none
    | some mem1 => primesLoop x fuel rest mem1

/-- Lines 64-83: both arrays after allocation (`malloc` for `products`, `calloc` for
`counts`), initialisation and the sieve. -/
def sieve (env : Env) (fuel x : Nat) (primes : List Nat) : Option Mem :=
  match initProducts x fuel 1 ((List.range (x + 1)).map (fun j => env.malloc j % U32)) with
  | none => none
  | some products => primesLoop x fuel primes { counts := List.replicate (x + 1) 0, products := products }

/-! ## The classification scan (lines 84-91) -/

/-- The test of line 85 for the values `c` of `counts[i]` and `q` of `products[i]`. -/
def isSemiprimeTest (c q i : Nat) : Bool :=
  (c == 2 && q == i) || (c == 1 && decide (q < i))

/-- Line 85: the test on the cells `counts[i]` and `products[i]`. -/
def isSemiprimeIndex (mem : Mem) (i : Nat) : Option Bool :=
  match mem.counts[i]?, mem.products[i]? with
  | some c, some q => some (isSemiprimeTest c q i)
  | _, _ => none

/-- The state of the scan: the printed values, `numsemiprimes` and `sumsemiprimes`. -/
structure Scan where
  printed : List Nat
  numsemiprimes : Nat
  sumsemiprimes : Nat
  deriving DecidableEq, Repr

/-- Lines 85-89: one pass through the body of the scan when the test holds. -/
def Scan.record (s : Scan) (justtotals : Bool) (i : Nat) : Scan where
  printed := if justtotals then s.printed else s.printed ++ [i]
  numsemiprimes := (s.numsemiprimes + 1) % U32
  sumsemiprimes := (s.sumsemiprimes + i) % U64

/-- The loop of lines 84-91 from the current value of `i`. -/
def classifyLoop (x : Nat) (mem : Mem) (justtotals : Bool) : Nat → Nat → Scan → Option Scan
  | 0, _, _ => none
  | fuel + 1, i, s =>
    match isSemiprimeIndex mem i with
    | none => none
    | some b =>
      let s1 := if b then s.record justtotals i else s
      if i = x then some s1
      else classifyLoop x mem justtotals fuel ((i + 1) % U32) s1

/-- Lines 62-63 and 84-91: the scan from `i = 4` with both totals zero. -/
def classify (fuel x : Nat) (mem : Mem) (justtotals : Bool) : Option Scan :=
  classifyLoop x mem justtotals fuel 4 { printed := [], numsemiprimes := 0, sumsemiprimes := 0 }

/-! ## `main` (lines 43-96) -/

/-- Lines 48-52: whether `argv[2]` is the text `--justtotals`. -/
def justtotalsFlag (argv2 : Option String) : Bool :=
  match argv2 with
  | some flag => flag == "--justtotals"
  | none => false

/-- The function `main`.  `argv1` is the value of `atol(argv[1])` when `argc > 1`,
`argv2` is `argv[2]` when `argc > 2`; the assignment to the `uint32_t x` reduces the
value modulo `2^32`.  The second test `x < 4` of line 57 cannot hold after the guard
of line 53 and has no counterpart here.  Allocation is taken to succeed, so the three
`assert`s pass. -/
def main (env : Env) (fuel : Nat) (argv1 : Option Int) (argv2 : Option String) :
    Option Outcome :=
  let x : Nat := match argv1 with
    | some v => (v % (U32 : Int)).toNat
    | none => 1000
  let justtotals : Bool := justtotalsFlag argv2
  if x < 4 ∨ argv1 = none then some Outcome.usage
  else
    match isqrt (env.sqrt x) fuel x with
    | none => none
    | some isqrtx =>
      match sieve env fuel x (env.Mairsonsprimesieve isqrtx) with
      | none => none
      | some mem =>
        match classify fuel x mem justtotals with
        | none => none
        | some s => some (Outcome.found s.printed s.numsemiprimes s.sumsemiprimes x)

/-! ## A reference environment -/

/-- Trial division: `n` has no divisor among `d, d+1, ..., d+fuel-1` below its
square root. -/
def noDivisorFrom (n : Nat) : Nat → Nat → Bool
  | 0, _ => true
  | fuel + 1, d => if n < d * d then true else if n % d = 0 then false else noDivisorFrom n fuel (d + 1)

/-- Primality by trial division. -/
def isPrimeTD (n : Nat) : Bool := decide (2 ≤ n) && noDivisorFrom n n 2

/-- Modelled from the spec: the prime source `Mairsonsprimesieve`, which is included
from a file outside the repository. The spec describes it as a function taking a
bound `B` and returning the ordered sequence of all primes `≤ B`. -/
def primesUpTo (B : Nat) : List Nat := (List.range (B + 1)).filter isPrimeTD

/-- An environment whose prime source is `primesUpTo`, whose floating point seed is
the number itself and whose fresh memory holds one fixed pattern. -/
def refEnv : Env where
  Mairsonsprimesieve := primesUpTo
  sqrt := fun n => n
  malloc := fun _ => 3735928559

/-! ## Specification-side views of the arrays -/

/-- The cell `counts[i]`, read as `0` outside the array. -/
def Mem.cnt (mem : Mem) (i : Nat) : Nat := mem.counts.getD i 0

/-- The cell `products[i]`, read as `0` outside the array. -/
def Mem.prd (mem : Mem) (i : Nat) : Nat := mem.products.getD i 0

/-- Both arrays have `x + 1` cells. -/
def Mem.Sized (mem : Mem) (x : Nat) : Prop :=
  mem.counts.length = x + 1 ∧ mem.products.length = x + 1

/-- The number of prime power levels among `pw, pw * p, pw * p^2, ...` (as long as
they are `≤ x`, at most `fuel` of them) that divide `i`: the number of visits that
the loop of lines 74-82 pays to index `i`. -/
def levels (x p i : Nat) : Nat → Nat → Nat
  | 0, _ => 0
  | fuel + 1, pw =>
    if pw ≤ x then (if i % pw = 0 then 1 else 0) + levels x p i fuel (pw * p) else 0

/-- The number of visits that the whole sieve pays to index `i`. -/
def visits (x fuel : Nat) (primes : List Nat) (i : Nat) : Nat :=
  (primes.map (fun p => levels x p i fuel p)).sum

/-- The product of the factors that the sieve multiplies into `products[i]`. -/
def visitProduct (x fuel : Nat) (primes : List Nat) (i : Nat) : Nat :=
  (primes.map (fun p => p ^ levels x p i fuel p)).prod

/-- The test of line 85 on the views of the two arrays. -/
def Mem.test (mem : Mem) (i : Nat) : Bool := isSemiprimeTest (mem.cnt i) (mem.prd i) i

/-- The indices `4, ..., x` that pass the test of line 85, in increasing order. -/
def Mem.hits (mem : Mem) (x : Nat) : List Nat := (List.range' 4 (x - 3)).filter mem.test

/-- The contract of the prime list: strictly increasing and holding exactly the
primes `≤ B`. -/
def IsPrimeList (B : Nat) (primes : List Nat) : Prop :=
  primes.Sorted (· < ·) ∧ ∀ p, p ∈ primes ↔ p.Prime ∧ p ≤ B

/-- The integers of `[4, X]` with exactly two prime factors counted with
multiplicity, in increasing order. -/
def semiprimesUpTo (X : Nat) : List Nat :=
  (List.range' 4 (X - 3)).filter (fun i => decide (ArithmeticFunction.cardFactors i = 2))

/-- What the environment has to provide for the bound `X`: a seed for `isqrt` between
`1` and `X`, and the list of the primes up to the square root of `X`. -/
def Env.Good (env : Env) (X : Nat) : Prop :=
  (1 ≤ env.sqrt X ∧ env.sqrt X ≤ X) ∧
  IsPrimeList (Nat.sqrt X) (env.Mairsonsprimesieve (Nat.sqrt X))

/-- Trial division of `m` by the entries `p` of an increasing list, as long as
`p * p ≤ m`: whether none of them divides `m`. -/
def cofactorPrime (m : Nat) : List Nat → Bool
  | [] => true
  | p :: ps =>
    match Nat.ble (p * p) m with
    | false => true
    | true =>
      match Nat.beq (m % p) 0 with
      | true => false
      | false => cofactorPrime m ps

/-- Trial division of `i` by the entries of an increasing list of primes: whether
`i` is the product of its smallest prime factor and one more prime. -/
def twoFactors (i : Nat) : List Nat → Bool
  | [] => false
  | p :: ps =>
    match Nat.ble (p * p) i with
    | false => false
    | true =>
      match Nat.beq (i % p) 0 with
      | true => cofactorPrime (i / p) (p :: ps)
      | false => twoFactors i ps

/-- The continuation `k` applied to the value of `n`, the value being computed first. -/
def force {α : Type} (n : Nat) (k : Nat → α) : α :=
  match n with
  | 0 => k 0
  | m + 1 => k (m + 1)

/-- The number and the sum of the indices `i, i + 1, ..., i + fuel - 1` that pass `f`,
added to `n` and `s`. -/
def tallyLoop (f : Nat → Bool) : Nat → Nat → Nat → Nat → Nat × Nat
  | 0, _, n, s => (n, s)
  | fuel + 1, i, n, s =>
    match f i with
    | true =>
      force (n + 1) (fun n1 => force (s + i) (fun s1 => force (i + 1) (fun i1 =>
        tallyLoop f fuel i1 n1 s1)))
    | false => force (i + 1) (fun i1 => tallyLoop f fuel i1 n s)

/-! ## Traces of the loops

The order in which the loops of the program reach their bodies depends on the
bound and on the prime list only, not on the contents of the arrays.  The functions
below follow the control flow of the loops and return the values of the loop
variables at every run of a body; each loop of the program is the corresponding
pass over its trace. -/

/-- The values of `ai` that fail the test of line 37, in order, and the value that
passes it. -/
def isqrtSteps (n : Nat) : Nat → Nat → Option (List Nat × Nat)
  | 0, _ => none
  | fuel + 1, ai =>
    if ai = 0 then none
    else if ai ≤ n / ai then
      if (ai + 1) % U64 = 0 then none
      else if (ai + 1) % U64 > n / ((ai + 1) % U64) then some ([], ai)
      else (isqrtSteps n fuel ((ai + n / ai) % U64 / 2)).map (fun r => (ai :: r.1, r.2))
    else (isqrtSteps n fuel ((ai + n / ai) % U64 / 2)).map (fun r => (ai :: r.1, r.2))

/-- The values of `i` for which the body of a loop
`for (i = i0; ; i++) { ...; if (i == x) break; }` runs: the loops of lines 66-69 and
of lines 84-91. -/
def indexSteps (x : Nat) : Nat → Nat → Option (List Nat)
  | 0, _ => none
  | fuel + 1, i =>
    if i = x then some [i]
    else (indexSteps x fuel ((i + 1) % U32)).map (fun l => i :: l)

/-- Line 67, `products[i] = 1`, for the indices of a list in turn. -/
def writeOnes : List Nat → List Nat → Option (List Nat)
  | [], products => some products
  | i :: rest, products =>
    if products.length ≤ i then none else writeOnes rest (products.set i 1)

/-- One run of lines 77-79: the values of `primepowermultiple`, of `primepower` and of
`primes[i]` at that run. -/
structure Visit where
  index : Nat
  primepower : Nat
  prime : Nat
  deriving DecidableEq, Repr

/-- The runs of the body of the loop of lines 76-80 from the current value of
`primepowermultiple`. -/
def multiplesSteps (x p primepower : Nat) : Nat → Nat → Option (List Visit)
  | 0, _ => none
  | fuel + 1, primepowermultiple =>
    if primepowermultiple ≤ x then
      (multiplesSteps x p primepower fuel ((primepowermultiple + primepower) % U64)).map
        (fun l => { index := primepowermultiple, primepower := primepower, prime := p } :: l)
    else some []

/-- The runs of lines 77-79 in the loop of lines 74-82 from the current value of
`primepower`. -/
def powersSteps (x p : Nat) : Nat → Nat → Option (List Visit)
  | 0, _ => none
  | fuel + 1, primepower =>
    if primepower ≤ x then
      match multiplesSteps x p primepower (fuel + 1) primepower with
      | none => none
      | some l => (powersSteps x p fuel ((primepower * p) % U64)).map (fun r => l ++ r)
    else some []

/-- The runs of lines 77-79 in the loop of lines 72-83 over the remaining entries of
`primes`. -/
def primesSteps (x fuel : Nat) : List Nat → Option (List Visit)
  | [] => some []
  | p :: rest =>
    match powersSteps x p fuel (p % U64) with
    | none => none
    | some l => (primesSteps x fuel rest).map (fun r => l ++ r)

/-- Lines 77-78 for the runs of a list in turn. -/
def Mem.visitAll (mem : Mem) : List Visit → Option Mem
  | [] => some mem
  | v :: rest =>
    match mem.visit v.index v.prime with
    | none => none
    | some mem1 => mem1.visitAll rest

/-- Lines 85-89 for the indices of a list in turn. -/
def Scan.scanAll (mem : Mem) (justtotals : Bool) : List Nat → Scan → Option Scan
  | [], s => some s
  | i :: rest, s =>
    match isSemiprimeIndex mem i with
    | none => none
    | some b => Scan.scanAll mem justtotals rest (if b then s.record justtotals i else s)

/-- The arrays as lines 64-71 leave them: `counts` all zero, `products` set to 1 from
index 1 on. -/
def initialMem (env : Env) (fuel x : Nat) : Option Mem :=
  match initProducts x fuel 1 ((List.range (x + 1)).map (fun j => env.malloc j % U32)) with
  | none => none
  | some products => some { counts := List.replicate (x + 1) 0, products := products }

/-- The runs of lines 77-79 that touch index `j`. -/
def visitsOf (j : Nat) (steps : List Visit) : List Visit :=
  steps.filter (fun v => v.index == j)

/-! ## Correctness of `isqrt` -/

theorem U32_lt_U64 : U32 < U64 := by decide

/-- One step of the iteration `(a + n / a) / 2` never falls below the square root. -/
theorem sqrt_le_step (n a : Nat) (ha : 0 < a) : Nat.sqrt n ≤ (a + n / a) / 2 := by
  by_contra hlt
  push_neg at hlt
  have h1 : n < a * (n / a + 1) := Nat.lt_mul_div_succ n ha
  have h3 : ((a + n / a) / 2 + 1) * ((a + n / a) / 2 + 1) ≤ n := Nat.le_sqrt.mp hlt
  have h2 : a + (n / a + 1) ≤ 2 * ((a + n / a) / 2 + 1) := by omega
  generalize (a + n / a) / 2 + 1 = c at h2 h3
  generalize n / a + 1 = b at h1 h2
  have h5 : (a + b) * (a + b) ≤ (2 * c) * (2 * c) := Nat.mul_le_mul h2 h2
  have h6 : 4 * (a * b) ≤ (a + b) * (a + b) := by
    zify
    nlinarith [sq_nonneg ((a : Int) - (b : Int))]
  nlinarith

/-- One step of the iteration from a value above the square root goes down. -/
theorem step_lt (n a : Nat) (h : n < a * a) : (a + n / a) / 2 < a := by
  have ha : 0 < a := by
    rcases Nat.eq_zero_or_pos a with h0 | h0
    · subst h0; simp at h
    · exact h0
  have h1 : n / a < a := (Nat.div_lt_iff_lt_mul ha).mpr h
  omega

/-- The exit test of line 37 holds exactly at the square root. -/
theorem exit_iff (n a : Nat) (ha : 0 < a) :
    (a ≤ n / a ∧ a + 1 > n / (a + 1)) ↔ a = Nat.sqrt n := by
  rw [Nat.eq_sqrt, Nat.le_div_iff_mul_le ha, gt_iff_lt,
    Nat.div_lt_iff_lt_mul (show 0 < a + 1 by omega)]

/-- From a value at or above the square root the loop walks down to the square root. -/
theorem isqrtLoop_from_above (n : Nat) (hn : n < U32) :
    ∀ (fuel a : Nat), Nat.sqrt n ≤ a → a ≤ n → 0 < a → a < fuel + Nat.sqrt n →
      isqrtLoop n fuel a = some (Nat.sqrt n) := by
  have h64 : U32 < U64 := U32_lt_U64
  intro fuel
  induction fuel with
  | zero => intro a h1 _ _ h4; omega
  | succ fuel ih =>
    intro a h1 h2 h3 h4
    have hs : (a + 1) % U64 = a + 1 := Nat.mod_eq_of_lt (by omega)
    have hdiv : n / a ≤ n := Nat.div_le_self n a
    have hm : (a + n / a) % U64 = a + n / a := Nat.mod_eq_of_lt (by
      have : U32 + U32 < U64 := by decide
      omega)
    rcases Nat.eq_or_lt_of_le h1 with heq | hlt
    · have hex := (exit_iff n a h3).mpr heq.symm
      unfold isqrtLoop
      rw [if_neg (by omega), if_pos hex.1, hs, if_neg (by omega), if_pos hex.2, heq]
    · have hlt2 : n < a * a := Nat.sqrt_lt.mp hlt
      have hnle : ¬ a ≤ n / a := by
        rw [Nat.le_div_iff_mul_le h3]; omega
      have hstep := step_lt n a hlt2
      have hge := sqrt_le_step n a h3
      have hpos : 0 < Nat.sqrt n := Nat.sqrt_pos.mpr (by omega)
      unfold isqrtLoop
      rw [if_neg (by omega), if_neg hnle, hm]
      exact ih _ hge (by omega) (by omega) (by omega)

/-- The loop returns the square root from every seed between `1` and `n`. -/
theorem isqrtLoop_eq_sqrt (n : Nat) (hn : n < U32) (fuel s : Nat) (hs1 : 1 ≤ s) (hs2 : s ≤ n)
    (hfuel : n + 2 ≤ fuel) : isqrtLoop n fuel s = some (Nat.sqrt n) := by
  have h64 : U32 < U64 := U32_lt_U64
  rcases Nat.lt_or_ge s (Nat.sqrt n) with hlt | hge
  · obtain ⟨fuel, rfl⟩ : ∃ f, fuel = f + 1 := ⟨fuel - 1, by omega⟩
    have hsq : (s + 1) * (s + 1) ≤ n := Nat.le_sqrt.mp hlt
    have hss : s * s ≤ n := by nlinarith
    have hs : (s + 1) % U64 = s + 1 := Nat.mod_eq_of_lt (by omega)
    have hdiv : n / s ≤ n := Nat.div_le_self n s
    have hm : (s + n / s) % U64 = s + n / s := Nat.mod_eq_of_lt (by
      have : U32 + U32 < U64 := by decide
      omega)
    have h1 : s ≤ n / s := (Nat.le_div_iff_mul_le hs1).mpr hss
    have h2 : ¬ (s + 1 > n / (s + 1)) := by
      rw [gt_iff_lt, Nat.div_lt_iff_lt_mul (show 0 < s + 1 by omega)]; omega
    have hge := sqrt_le_step n s hs1
    have hpos : 0 < Nat.sqrt n := by omega
    unfold isqrtLoop
    rw [if_neg (by omega), if_pos h1, hs, if_neg (by omega), if_neg h2, hm]
    exact isqrtLoop_from_above n hn fuel _ hge (by omega) (by omega) (by omega)
  · exact isqrtLoop_from_above n hn fuel s hge hs2 hs1 (by omega)

/-- The function `isqrt` returns the square root for every argument below `2^32`. -/
theorem isqrt_eq_sqrt (n : Nat) (hn : n < U32) (fuel s : Nat)
    (hs : 2 ≤ n → 1 ≤ s ∧ s ≤ n) (hfuel : n + 2 ≤ fuel) :
    isqrt s fuel n = some (Nat.sqrt n) := by
  have h64 : U32 < U64 := U32_lt_U64
  unfold isqrt
  by_cases h2 : n < 2
  · rw [if_pos h2, Nat.mod_eq_of_lt hn]
    have : n = Nat.sqrt n := by
      rw [Nat.eq_sqrt]
      constructor <;> nlinarith
    rw [← this]
  · have hs' := hs (by omega)
    rw [if_neg h2, Nat.mod_eq_of_lt (by omega), isqrtLoop_eq_sqrt n hn fuel s hs'.1 hs'.2 hfuel]
    have : Nat.sqrt n ≤ n := Nat.sqrt_le_self n
    simp only [Option.map_some']
    rw [Nat.mod_eq_of_lt (by omega)]

/-! ## The sieve loops -/

theorem getD_set (l : List Nat) (m v j : Nat) (hm : m < l.length) :
    (l.set m v).getD j 0 = if j = m then v else l.getD j 0 := by
  simp only [List.getD_eq_getElem?_getD, List.getElem?_set]
  by_cases h : m = j
  · subst h; simp [hm]
  · have h' : ¬ j = m := fun e => h e.symm
    simp [h, h']

theorem getElem?_of_lt (l : List Nat) (j : Nat) (h : j < l.length) :
    l[j]? = some (l.getD j 0) := by
  rw [List.getD_eq_getElem?_getD, List.getElem?_eq_getElem h]; rfl

theorem Mem.counts_getElem? (mem : Mem) (x j : Nat) (hs : mem.Sized x) (hj : j ≤ x) :
    mem.counts[j]? = some (mem.cnt j) :=
  getElem?_of_lt _ _ (by have := hs.1; omega)

theorem Mem.products_getElem? (mem : Mem) (x j : Nat) (hs : mem.Sized x) (hj : j ≤ x) :
    mem.products[j]? = some (mem.prd j) :=
  getElem?_of_lt _ _ (by have := hs.2; omega)

theorem visit_spec (mem : Mem) (x m p : Nat) (hs : mem.Sized x) (hm : m ≤ x) :
    ∃ mem1, mem.visit m p = some mem1 ∧ mem1.Sized x ∧
      (∀ j, mem1.cnt j = if j = m then (mem.cnt m + 1) % U8 else mem.cnt j) ∧
      (∀ j, mem1.prd j = if j = m then (mem.prd m * p) % U32 else mem.prd j) := by
  have h1 : m < mem.counts.length := by have := hs.1; omega
  have h2 : m < mem.products.length := by have := hs.2; omega
  refine ⟨{ counts := mem.counts.set m ((mem.cnt m + 1) % U8),
            products := mem.products.set m ((mem.prd m * p) % U32) }, ?_, ?_, ?_, ?_⟩
  · unfold Mem.visit
    rw [Mem.counts_getElem? mem x m hs hm, Mem.products_getElem? mem x m hs hm]
  · exact ⟨by simp [hs.1], by simp [hs.2]⟩
  · intro j
    exact getD_set _ _ _ _ h1
  · intro j
    exact getD_set _ _ _ _ h2

theorem add_le_of_dvd_of_lt (pw m j : Nat) (hm : pw ∣ m) (hj : pw ∣ j) (hlt : m < j) :
    m + pw ≤ j := by
  obtain ⟨a, rfl⟩ := hm
  obtain ⟨b, rfl⟩ := hj
  have hab : a < b := Nat.lt_of_mul_lt_mul_left hlt
  calc pw * a + pw = pw * (a + 1) := by ring
    _ ≤ pw * b := Nat.mul_le_mul_left pw hab

theorem multiplesLoop_spec (x p pw : Nat) (hx : x < U32) (hpw : 0 < pw) (hpwx : pw ≤ x) :
    ∀ (fuel m : Nat) (mem : Mem), mem.Sized x → pw ∣ m → x + 1 - m < fuel →
      ∃ mem1, multiplesLoop x p pw fuel m mem = some mem1 ∧ mem1.Sized x ∧
        (∀ j, mem1.cnt j =
          if m ≤ j ∧ j ≤ x ∧ pw ∣ j then (mem.cnt j + 1) % U8 else mem.cnt j) ∧
        (∀ j, mem1.prd j =
          if m ≤ j ∧ j ≤ x ∧ pw ∣ j then (mem.prd j * p) % U32 else mem.prd j) := by
  have h64 : U32 + U32 < U64 := by decide
  intro fuel
  induction fuel with
  | zero =>
    intro m mem hs _ hf
    omega
  | succ fuel ih =>
    intro m mem hs hdvd hf
    unfold multiplesLoop
    by_cases hmx : m ≤ x
    · obtain ⟨mem1, hv, hs1, hc1, hp1⟩ := visit_spec mem x m p hs hmx
      have hmod : (m + pw) % U64 = m + pw := Nat.mod_eq_of_lt (by omega)
      obtain ⟨mem2, hl, hs2, hc2, hp2⟩ :=
        ih (m + pw) mem1 hs1 (Dvd.dvd.add hdvd (dvd_refl pw)) (by omega)
      refine ⟨mem2, ?_, hs2, ?_, ?_⟩
      · rw [if_pos hmx, hv, hmod]; exact hl
      · intro j
        rw [hc2 j, hc1 j]
        by_cases hjm : j = m
        · subst hjm
          rw [if_neg (by omega), if_pos rfl, if_pos ⟨le_refl _, hmx, hdvd⟩]
        · rw [if_neg hjm]
          by_cases hin : m ≤ j ∧ j ≤ x ∧ pw ∣ j
          · have : m + pw ≤ j :=
              add_le_of_dvd_of_lt pw m j hdvd hin.2.2 (by omega)
            rw [if_pos ⟨this, hin.2⟩, if_pos hin]
          · rw [if_neg hin, if_neg (fun h => hin ⟨by omega, h.2⟩)]
      · intro j
        rw [hp2 j, hp1 j]
        by_cases hjm : j = m
        · subst hjm
          rw [if_neg (by omega), if_pos rfl, if_pos ⟨le_refl _, hmx, hdvd⟩]
        · rw [if_neg hjm]
          by_cases hin : m ≤ j ∧ j ≤ x ∧ pw ∣ j
          · have : m + pw ≤ j :=
              add_le_of_dvd_of_lt pw m j hdvd hin.2.2 (by omega)
            rw [if_pos ⟨this, hin.2⟩, if_pos hin]
          · rw [if_neg hin, if_neg (fun h => hin ⟨by omega, h.2⟩)]
    · refine ⟨mem, by rw [if_neg hmx], hs, ?_, ?_⟩
      · intro j; rw [if_neg (by omega)]
      · intro j; rw [if_neg (by omega)]

theorem powersLoop_spec (x p : Nat) (hx : x < U32) (hp2 : 2 ≤ p) (hp32 : p < U32) :
    ∀ (fuel pw : Nat) (mem : Mem), mem.Sized x → 0 < pw → x + 1 - pw < fuel →
      ∃ mem1, powersLoop x p fuel pw mem = some mem1 ∧ mem1.Sized x ∧
        (∀ j N, 1 ≤ j → j ≤ x → mem.cnt j = N % U8 →
          mem1.cnt j = (N + levels x p j fuel pw) % U8) ∧
        (∀ j Q, 1 ≤ j → j ≤ x → mem.prd j = Q % U32 →
          mem1.prd j = (Q * p ^ levels x p j fuel pw) % U32) := by
  have h64 : U32 * U32 = U64 := by decide
  intro fuel
  induction fuel with
  | zero =>
    intro pw mem hs hpw hf
    omega
  | succ fuel ih =>
    intro pw mem hs hpw hf
    unfold powersLoop levels
    by_cases hpx : pw ≤ x
    · obtain ⟨mem1, hm, hs1, hc1, hp1⟩ :=
        multiplesLoop_spec x p pw hx hpw hpx (fuel + 1) pw mem hs (dvd_refl pw) hf
      have hlt : pw * p < U64 := by
        calc pw * p < U32 * U32 := Nat.mul_lt_mul'' (by omega) hp32
          _ = U64 := h64
      have hmod : (pw * p) % U64 = pw * p := Nat.mod_eq_of_lt hlt
      have hgrow : pw + 1 ≤ pw * p := by nlinarith
      obtain ⟨mem2, hl, hs2, hc2, hp2'⟩ :=
        ih (pw * p) mem1 hs1 (by positivity) (by omega)
      refine ⟨mem2, ?_, hs2, ?_, ?_⟩
      · rw [if_pos hpx, hm, hmod]; exact hl
      · intro j N hj1 hjx hN
        rw [if_pos hpx]
        have hvis : (pw ≤ j ∧ j ≤ x ∧ pw ∣ j) ↔ j % pw = 0 := by
          constructor
          · intro h; exact Nat.mod_eq_zero_of_dvd h.2.2
          · intro h
            have hd : pw ∣ j := Nat.dvd_of_mod_eq_zero h
            exact ⟨Nat.le_of_dvd (by omega) hd, hjx, hd⟩
        have h1 : mem1.cnt j = (N + if j % pw = 0 then 1 else 0) % U8 := by
          rw [hc1 j]
          by_cases hv : j % pw = 0
          · rw [if_pos (hvis.mpr hv), if_pos hv, hN, Nat.mod_add_mod]
          · rw [if_neg (fun h => hv (hvis.mp h)), if_neg hv, hN, Nat.add_zero]
        rw [hc2 j _ hj1 hjx h1, Nat.add_assoc]
      · intro j Q hj1 hjx hQ
        rw [if_pos hpx]
        have hvis : (pw ≤ j ∧ j ≤ x ∧ pw ∣ j) ↔ j % pw = 0 := by
          constructor
          · intro h; exact Nat.mod_eq_zero_of_dvd h.2.2
          · intro h
            have hd : pw ∣ j := Nat.dvd_of_mod_eq_zero h
            exact ⟨Nat.le_of_dvd (by omega) hd, hjx, hd⟩
        have h1 : mem1.prd j = (Q * p ^ (if j % pw = 0 then 1 else 0)) % U32 := by
          rw [hp1 j]
          by_cases hv : j % pw = 0
          · rw [if_pos (hvis.mpr hv), if_pos hv, hQ, pow_one, Nat.mod_mul_mod]
          · rw [if_neg (fun h => hv (hvis.mp h)), if_neg hv, hQ, pow_zero, Nat.mul_one]
        rw [hp2' j _ hj1 hjx h1, pow_add, Nat.mul_assoc]
    · refine ⟨mem, by rw [if_neg hpx], hs, ?_, ?_⟩
      · intro j N _ _ hN; rw [if_neg hpx, Nat.add_zero]; exact hN
      · intro j Q _ _ hQ; rw [if_neg hpx, pow_zero, Nat.mul_one]; exact hQ

theorem primesLoop_spec (x fuel : Nat) (hx : x < U32) (hf : x < fuel) :
    ∀ (primes : List Nat) (mem : Mem), (∀ p ∈ primes, 2 ≤ p ∧ p < U32) → mem.Sized x →
      ∃ mem1, primesLoop x fuel primes mem = some mem1 ∧ mem1.Sized x ∧
        (∀ j N, 1 ≤ j → j ≤ x → mem.cnt j = N % U8 →
          mem1.cnt j = (N + visits x fuel primes j) % U8) ∧
        (∀ j Q, 1 ≤ j → j ≤ x → mem.prd j = Q % U32 →
          mem1.prd j = (Q * visitProduct x fuel primes j) % U32) := by
  have h64 : U32 < U64 := U32_lt_U64
  intro primes
  induction primes with
  | nil =>
    intro mem _ hs
    refine ⟨mem, rfl, hs, ?_, ?_⟩
    · intro j N _ _ hN; simpa [visits] using hN
    · intro j Q _ _ hQ; simpa [visitProduct] using hQ
  | cons p rest ih =>
    intro mem hP hs
    have hp := hP p (List.mem_cons_self p rest)
    have hmod : p % U64 = p := Nat.mod_eq_of_lt (by omega)
    obtain ⟨mem1, h1, hs1, hc1, hp1⟩ :=
      powersLoop_spec x p hx hp.1 hp.2 fuel p mem hs (by omega) (by omega)
    obtain ⟨mem2, h2, hs2, hc2, hp2⟩ :=
      ih mem1 (fun q hq => hP q (List.mem_cons_of_mem p hq)) hs1
    refine ⟨mem2, ?_, hs2, ?_, ?_⟩
    · unfold primesLoop
      rw [hmod, h1]; exact h2
    · intro j N hj1 hjx hN
      rw [hc2 j _ hj1 hjx (hc1 j N hj1 hjx hN)]
      simp only [visits, List.map_cons, List.sum_cons, Nat.add_assoc]
    · intro j Q hj1 hjx hQ
      rw [hp2 j _ hj1 hjx (hp1 j Q hj1 hjx hQ)]
      simp only [visitProduct, List.map_cons, List.prod_cons, Nat.mul_assoc]

theorem initProducts_spec (x : Nat) (hx : x < U32) :
    ∀ (fuel i : Nat) (l : List Nat), l.length = x + 1 → i ≤ x → x - i < fuel →
      ∃ l1, initProducts x fuel i l = some l1 ∧ l1.length = x + 1 ∧
        ∀ j, l1.getD j 0 = if i ≤ j ∧ j ≤ x then 1 else l.getD j 0 := by
  intro fuel
  induction fuel with
  | zero => intro i l _ _ hf; omega
  | succ fuel ih =>
    intro i l hl hi hf
    have hil : i < l.length := by omega
    unfold initProducts
    rw [if_neg (by omega)]
    by_cases hix : i = x
    · refine ⟨l.set i 1, by rw [if_pos hix], by simp [hl], ?_⟩
      intro j
      rw [getD_set l i 1 j hil]
      by_cases hj : j = i
      · rw [if_pos hj, if_pos (by omega)]
      · rw [if_neg hj, if_neg (by omega)]
    · have hmod : (i + 1) % U32 = i + 1 := Nat.mod_eq_of_lt (by omega)
      obtain ⟨l1, h1, hl1, hc⟩ := ih (i + 1) (l.set i 1) (by simp [hl]) (by omega) (by omega)
      refine ⟨l1, by rw [if_neg hix, hmod]; exact h1, hl1, ?_⟩
      intro j
      rw [hc j, getD_set l i 1 j hil]
      by_cases hj : j = i
      · rw [if_pos hj, if_neg (by omega), if_pos (by omega)]
      · rw [if_neg hj]
        by_cases hj2 : i + 1 ≤ j ∧ j ≤ x
        · rw [if_pos hj2, if_pos (by omega)]
        · rw [if_neg hj2, if_neg (by omega)]

/-- The contents of both arrays after the sieve, for every list of entries `≥ 2`. -/
theorem sieve_spec (env : Env) (fuel x : Nat) (primes : List Nat) (hx1 : 1 ≤ x)
    (hx : x < U32) (hf : x < fuel) (hP : ∀ p ∈ primes, 2 ≤ p ∧ p < U32) :
    ∃ mem, sieve env fuel x primes = some mem ∧ mem.Sized x ∧
      ∀ j, 1 ≤ j → j ≤ x →
        mem.cnt j = visits x fuel primes j % U8 ∧
        mem.prd j = visitProduct x fuel primes j % U32 := by
  obtain ⟨l1, h1, hl1, hc⟩ := initProducts_spec x hx fuel 1
    ((List.range (x + 1)).map (fun j => env.malloc j % U32)) (by simp) hx1 (by omega)
  have hs0 : Mem.Sized { counts := List.replicate (x + 1) 0, products := l1 } x :=
    ⟨by simp, hl1⟩
  obtain ⟨mem, h2, hs, hcnt, hprd⟩ := primesLoop_spec x fuel hx hf primes _ hP hs0
  refine ⟨mem, ?_, hs, ?_⟩
  · unfold sieve
    rw [h1]; exact h2
  · intro j hj1 hjx
    constructor
    · have := hcnt j 0 hj1 hjx (by
        simp only [Mem.cnt, List.getD_eq_getElem?_getD, List.getElem?_replicate]
        rw [if_pos (by omega)]; rfl)
      simpa using this
    · have := hprd j 1 hj1 hjx (by
        simp only [Mem.prd]
        rw [hc j, if_pos ⟨hj1, hjx⟩]; rfl)
      simpa using this

/-! ## The classification scan -/

theorem isSemiprimeIndex_eq (mem : Mem) (x i : Nat) (hs : mem.Sized x) (hi : i ≤ x) :
    isSemiprimeIndex mem i = some (mem.test i) := by
  unfold isSemiprimeIndex
  rw [Mem.counts_getElem? mem x i hs hi, Mem.products_getElem? mem x i hs hi]
  rfl

theorem classifyLoop_spec (x : Nat) (mem : Mem) (jt : Bool) (hx : x < U32)
    (hs : mem.Sized x) :
    ∀ (fuel i : Nat) (s : Scan), i ≤ x → x - i < fuel →
      s.numsemiprimes < U32 → s.sumsemiprimes < U64 →
      classifyLoop x mem jt fuel i s = some
        { printed := if jt then s.printed
            else s.printed ++ (List.range' i (x + 1 - i)).filter mem.test
          numsemiprimes :=
            (s.numsemiprimes + ((List.range' i (x + 1 - i)).filter mem.test).length) % U32
          sumsemiprimes :=
            (s.sumsemiprimes + ((List.range' i (x + 1 - i)).filter mem.test).sum) % U64 } := by
  have hU32 : 0 < U32 := by decide
  have hU64 : 0 < U64 := by decide
  intro fuel
  induction fuel with
  | zero => intro i s _ hf; omega
  | succ fuel ih =>
    intro i s hi hf hn hsum
    unfold classifyLoop
    rw [isSemiprimeIndex_eq mem x i hs hi]
    have hr : List.range' i (x + 1 - i) = i :: List.range' (i + 1) (x + 1 - (i + 1)) := by
      have : x + 1 - i = (x + 1 - (i + 1)) + 1 := by omega
      rw [this, List.range'_succ]
    have hn1 : (if mem.test i then s.record jt i else s).numsemiprimes < U32 := by
      split
      · exact Nat.mod_lt _ hU32
      · exact hn
    have hsum1 : (if mem.test i then s.record jt i else s).sumsemiprimes < U64 := by
      split
      · exact Nat.mod_lt _ hU64
      · exact hsum
    by_cases hix : i = x
    · simp only [hix, if_true]
      have : x + 1 - x = 1 := by omega
      rw [this]
      cases ht : mem.test x <;> cases jt <;>
        simp [Scan.record, ht, List.range', List.filter, Nat.mod_eq_of_lt hn,
          Nat.mod_eq_of_lt hsum]
    · have hmod : (i + 1) % U32 = i + 1 := Nat.mod_eq_of_lt (by omega)
      simp only [if_neg hix, hmod]
      rw [ih (i + 1) _ (by omega) (by omega) hn1 hsum1, hr]
      cases ht : mem.test i <;> cases jt <;>
        simp [Scan.record, ht, List.filter, Nat.add_assoc, Nat.add_comm 1]

theorem range'_filter_length_le (p : Nat → Bool) (i n : Nat) :
    ((List.range' i n).filter p).length ≤ n := by
  calc ((List.range' i n).filter p).length ≤ (List.range' i n).length := List.length_filter_le _ _
    _ = n := List.length_range' _ _ _

theorem sum_le_of_forall_le (l : List Nat) (b : Nat) (h : ∀ v ∈ l, v ≤ b) :
    l.sum ≤ l.length * b := by
  induction l with
  | nil => simp
  | cons a t ih =>
    have h1 := h a (List.mem_cons_self a t)
    have h2 := ih (fun v hv => h v (List.mem_cons_of_mem a hv))
    simp only [List.sum_cons, List.length_cons]
    nlinarith

theorem mem_hits (mem : Mem) (x v : Nat) (hx : 4 ≤ x) :
    v ∈ mem.hits x ↔ (4 ≤ v ∧ v ≤ x) ∧ mem.test v = true := by
  unfold Mem.hits
  rw [List.mem_filter, List.mem_range'_1]
  constructor
  · rintro ⟨⟨h1, h2⟩, h3⟩; exact ⟨⟨h1, by omega⟩, h3⟩
  · rintro ⟨⟨h1, h2⟩, h3⟩; exact ⟨⟨h1, by omega⟩, h3⟩

theorem hits_length_lt (mem : Mem) (x : Nat) (hx : x < U32) : (mem.hits x).length < U32 := by
  have := range'_filter_length_le mem.test 4 (x - 3)
  unfold Mem.hits
  omega

theorem hits_sum_lt (mem : Mem) (x : Nat) (hx4 : 4 ≤ x) (hx : x < U32) :
    (mem.hits x).sum < U64 := by
  have h1 : (mem.hits x).length ≤ x - 3 := range'_filter_length_le mem.test 4 (x - 3)
  have h2 : (mem.hits x).sum ≤ (mem.hits x).length * x :=
    sum_le_of_forall_le _ _ (fun v hv => ((mem_hits mem x v hx4).mp hv).1.2)
  have h3 : (mem.hits x).length * x ≤ x * x := Nat.mul_le_mul_right x (by omega)
  have h4 : x * x < U32 * U32 := Nat.mul_lt_mul'' hx hx
  have h5 : U32 * U32 = U64 := by decide
  omega

/-- The scan returns the indices that pass the test, their number and their sum. -/
theorem classify_spec (fuel x : Nat) (mem : Mem) (jt : Bool) (hx4 : 4 ≤ x) (hx : x < U32)
    (hf : x ≤ fuel) (hs : mem.Sized x) :
    classify fuel x mem jt = some
      { printed := if jt then [] else mem.hits x
        numsemiprimes := (mem.hits x).length
        sumsemiprimes := (mem.hits x).sum } := by
  unfold classify
  rw [classifyLoop_spec x mem jt hx hs fuel 4 _ hx4 (by omega) (by decide) (by decide)]
  have h1 : x + 1 - 4 = x - 3 := by omega
  simp only [h1, List.nil_append, Nat.zero_add]
  have h2 := hits_length_lt mem x hx
  have h3 := hits_sum_lt mem x hx4 hx
  unfold Mem.hits at h2 h3 ⊢
  rw [Nat.mod_eq_of_lt h2, Nat.mod_eq_of_lt h3]

/-! ## Number theory of the sieve -/

theorem levels_pow (x p i : Nat) (hp : p.Prime) (hi1 : 1 ≤ i) (hix : i ≤ x) :
    ∀ (fuel k : Nat), x + 1 - p ^ k < fuel →
      levels x p i fuel (p ^ k) = i.factorization p + 1 - k := by
  have hi0 : i ≠ 0 := by omega
  have hp2 : 2 ≤ p := hp.two_le
  intro fuel
  induction fuel with
  | zero => intro k hf; omega
  | succ fuel ih =>
    intro k hf
    have hpos : 0 < p ^ k := Nat.pow_pos (by omega)
    unfold levels
    by_cases hpx : p ^ k ≤ x
    · have hgrow : p ^ k + 1 ≤ p ^ (k + 1) := by
        rw [pow_succ]; nlinarith
      rw [if_pos hpx, ← pow_succ, ih (k + 1) (by omega)]
      by_cases hd : i % p ^ k = 0
      · have : k ≤ i.factorization p :=
          (hp.pow_dvd_iff_le_factorization hi0).mp (Nat.dvd_of_mod_eq_zero hd)
        rw [if_pos hd]; omega
      · have : ¬ k ≤ i.factorization p := fun h =>
          hd (Nat.mod_eq_zero_of_dvd ((hp.pow_dvd_iff_le_factorization hi0).mpr h))
        rw [if_neg hd]; omega
    · rw [if_neg hpx]
      have : ¬ k ≤ i.factorization p := fun h => by
        have hd := (hp.pow_dvd_iff_le_factorization hi0).mpr h
        have := Nat.le_of_dvd (by omega) hd
        omega
      omega

/-- For a prime `p` the loop of lines 74-82 visits `i` once per power of `p` in `i`. -/
theorem levels_eq_factorization (x p i fuel : Nat) (hp : p.Prime) (hi1 : 1 ≤ i)
    (hix : i ≤ x) (hf : x < fuel) : levels x p i fuel p = i.factorization p := by
  have h := levels_pow x p i hp hi1 hix fuel 1 (by
    have := hp.two_le
    rw [pow_one]; omega)
  rw [pow_one] at h
  rw [h]; omega

theorem visits_eq (x fuel i : Nat) (primes : List Nat) (hP : ∀ p ∈ primes, p.Prime)
    (hi1 : 1 ≤ i) (hix : i ≤ x) (hf : x < fuel) :
    visits x fuel primes i = (primes.map (fun p => i.factorization p)).sum := by
  unfold visits
  congr 1
  exact List.map_congr_left (fun p hp => levels_eq_factorization x p i fuel (hP p hp) hi1 hix hf)

theorem visitProduct_eq (x fuel i : Nat) (primes : List Nat) (hP : ∀ p ∈ primes, p.Prime)
    (hi1 : 1 ≤ i) (hix : i ≤ x) (hf : x < fuel) :
    visitProduct x fuel primes i = (primes.map (fun p => p ^ i.factorization p)).prod := by
  unfold visitProduct
  congr 1
  exact List.map_congr_left (fun p hp => by
    rw [levels_eq_factorization x p i fuel (hP p hp) hi1 hix hf])

theorem cardFactors_eq_sum (j : Nat) :
    ArithmeticFunction.cardFactors j = ∑ p in j.primeFactors, j.factorization p := by
  rw [ArithmeticFunction.cardFactors_apply, ← List.sum_toFinset_count_eq_length]
  unfold Nat.primeFactors
  exact Finset.sum_congr rfl (fun p _ => Nat.primeFactorsList_count_eq)

theorem self_eq_prod (j : Nat) (hj : j ≠ 0) :
    ∏ p in j.primeFactors, p ^ j.factorization p = j := by
  have h := Nat.factorization_prod_pow_eq_self hj
  rw [Finsupp.prod, Nat.support_factorization] at h
  exact h

/-- No index up to `x` is divisible by two primes above the square root of `x`. -/
theorem no_two_large (x i q r : Nat) (hi1 : 1 ≤ i) (hix : i ≤ x)
    (hq : Nat.sqrt x < q) (hr : Nat.sqrt x < r) : ¬ q * r ∣ i := by
  intro hd
  have h1 : q * r ≤ i := Nat.le_of_dvd (by omega) hd
  have h2 : x < (Nat.sqrt x + 1) * (Nat.sqrt x + 1) := Nat.lt_succ_sqrt x
  have h3 : (Nat.sqrt x + 1) * (Nat.sqrt x + 1) ≤ q * r := Nat.mul_le_mul hq hr
  omega

/-- The prime factors of `i` above the square root of `x`: none, or one with exponent 1. -/
theorem large_factors (x i : Nat) (hi1 : 1 ≤ i) (hix : i ≤ x) :
    i.primeFactors.filter (fun p => ¬ p ≤ Nat.sqrt x) = ∅ ∨
    ∃ q, i.primeFactors.filter (fun p => ¬ p ≤ Nat.sqrt x) = {q} ∧ i.factorization q = 1 := by
  have hi0 : i ≠ 0 := by omega
  rcases Finset.eq_empty_or_nonempty (i.primeFactors.filter (fun p => ¬ p ≤ Nat.sqrt x))
    with h | ⟨q, hq⟩
  · exact Or.inl h
  · right
    rw [Finset.mem_filter, Nat.mem_primeFactors] at hq
    obtain ⟨⟨hqp, hqd, _⟩, hql⟩ := hq
    refine ⟨q, ?_, ?_⟩
    · ext r
      rw [Finset.mem_filter, Nat.mem_primeFactors, Finset.mem_singleton]
      constructor
      · rintro ⟨⟨hrp, hrd, _⟩, hrl⟩
        by_contra hne
        have hco : Nat.Coprime q r := (Nat.coprime_primes hqp hrp).mpr (fun e => hne e.symm)
        exact no_two_large x i q r hi1 hix (by omega) (by omega)
          (Nat.Coprime.mul_dvd_of_dvd_of_dvd hco hqd hrd)
      · rintro rfl
        exact ⟨⟨hqp, hqd, hi0⟩, hql⟩
    · have h1 : 0 < i.factorization q := hqp.factorization_pos_of_dvd hi0 hqd
      have h2 : ¬ 2 ≤ i.factorization q := fun h => by
        have hd := (hqp.pow_dvd_iff_le_factorization hi0).mpr h
        rw [pow_two] at hd
        exact no_two_large x i q q hi1 hix (by omega) (by omega) hd
      omega

theorem sum_primeList (r i : Nat) (primes : List Nat) (hP : IsPrimeList r primes) :
    (primes.map (fun p => i.factorization p)).sum =
      ∑ p in i.primeFactors.filter (fun p => p ≤ r), i.factorization p := by
  have hnd : primes.Nodup := hP.1.nodup
  rw [← List.sum_toFinset _ hnd]
  symm
  apply Finset.sum_subset
  · intro p hp
    rw [Finset.mem_filter, Nat.mem_primeFactors] at hp
    rw [List.mem_toFinset, hP.2]
    exact ⟨hp.1.1, hp.2⟩
  · intro p hp hnot
    rw [List.mem_toFinset, hP.2] at hp
    rw [Finset.mem_filter, not_and_or] at hnot
    rcases hnot with h | h
    · exact Finsupp.not_mem_support_iff.mp (by rwa [Nat.support_factorization])
    · exact absurd hp.2 h

theorem prod_primeList (r i : Nat) (primes : List Nat) (hP : IsPrimeList r primes) :
    (primes.map (fun p => p ^ i.factorization p)).prod =
      ∏ p in i.primeFactors.filter (fun p => p ≤ r), p ^ i.factorization p := by
  have hnd : primes.Nodup := hP.1.nodup
  rw [← List.prod_toFinset _ hnd]
  symm
  apply Finset.prod_subset
  · intro p hp
    rw [Finset.mem_filter, Nat.mem_primeFactors] at hp
    rw [List.mem_toFinset, hP.2]
    exact ⟨hp.1.1, hp.2⟩
  · intro p hp hnot
    rw [List.mem_toFinset, hP.2] at hp
    rw [Finset.mem_filter, not_and_or] at hnot
    rcases hnot with h | h
    · have : i.factorization p = 0 :=
        Finsupp.not_mem_support_iff.mp (by rwa [Nat.support_factorization])
      rw [this, pow_zero]
    · exact absurd hp.2 h

theorem two_pow_sum_le_prod (s : Finset Nat) (f : Nat → Nat) (h : ∀ p ∈ s, 2 ≤ p) :
    2 ^ (∑ p in s, f p) ≤ ∏ p in s, p ^ f p := by
  rw [← Finset.prod_pow_eq_pow_sum]
  exact Finset.prod_le_prod' (fun p hp => Nat.pow_le_pow_left (h p hp) (f p))

/-- What the sums and products over the prime list amount to. -/
theorem primeList_math (x i : Nat) (primes : List Nat) (hP : IsPrimeList (Nat.sqrt x) primes)
    (hi1 : 1 ≤ i) (hix : i ≤ x) :
    (primes.map (fun p => p ^ i.factorization p)).prod ∣ i ∧
    2 ^ (primes.map (fun p => i.factorization p)).sum ≤
      (primes.map (fun p => p ^ i.factorization p)).prod ∧
    ((∀ q, q.Prime → q ∣ i → q ≤ Nat.sqrt x) →
      (primes.map (fun p => i.factorization p)).sum = ArithmeticFunction.cardFactors i ∧
      (primes.map (fun p => p ^ i.factorization p)).prod = i) ∧
    (∀ q, q.Prime → q ∣ i → Nat.sqrt x < q →
      (primes.map (fun p => i.factorization p)).sum + 1 = ArithmeticFunction.cardFactors i ∧
      (primes.map (fun p => p ^ i.factorization p)).prod * q = i) := by
  have hi0 : i ≠ 0 := by omega
  rw [sum_primeList _ i primes hP, prod_primeList _ i primes hP]
  have hsum := Finset.sum_filter_add_sum_filter_not i.primeFactors (fun p => p ≤ Nat.sqrt x)
    (fun p => i.factorization p)
  have hprod := Finset.prod_filter_mul_prod_filter_not i.primeFactors (fun p => p ≤ Nat.sqrt x)
    (fun p => p ^ i.factorization p)
  rw [← cardFactors_eq_sum] at hsum
  rw [self_eq_prod i hi0] at hprod
  refine ⟨Dvd.intro _ hprod, ?_, ?_, ?_⟩
  · apply two_pow_sum_le_prod
    intro p hp
    rw [Finset.mem_filter, Nat.mem_primeFactors] at hp
    exact hp.1.1.two_le
  · intro hsmooth
    have hempty : i.primeFactors.filter (fun p => ¬ p ≤ Nat.sqrt x) = ∅ := by
      apply Finset.filter_eq_empty_iff.mpr
      intro p hp
      rw [Nat.mem_primeFactors] at hp
      exact not_not.mpr (hsmooth p hp.1 hp.2.1)
    rw [hempty, Finset.sum_empty, Nat.add_zero] at hsum
    rw [hempty, Finset.prod_empty, Nat.mul_one] at hprod
    exact ⟨hsum, hprod⟩
  · intro q hq hqd hql
    have hmem : q ∈ i.primeFactors.filter (fun p => ¬ p ≤ Nat.sqrt x) := by
      rw [Finset.mem_filter, Nat.mem_primeFactors]
      exact ⟨⟨hq, hqd, hi0⟩, by omega⟩
    rcases large_factors x i hi1 hix with h | ⟨q', h, hone⟩
    · rw [h] at hmem; exact absurd hmem (Finset.not_mem_empty q)
    · rw [h, Finset.mem_singleton] at hmem
      subst hmem
      rw [h, Finset.sum_singleton, hone] at hsum
      rw [h, Finset.prod_singleton, hone, pow_one] at hprod
      exact ⟨hsum, hprod⟩

theorem primeList_entries (x : Nat) (primes : List Nat) (hx : x < U32)
    (hP : IsPrimeList (Nat.sqrt x) primes) :
    (∀ p ∈ primes, p.Prime) ∧ (∀ p ∈ primes, 2 ≤ p ∧ p < U32) := by
  constructor
  · intro p hp; exact ((hP.2 p).mp hp).1
  · intro p hp
    have h := (hP.2 p).mp hp
    have := Nat.sqrt_le_self x
    exact ⟨h.1.two_le, by omega⟩

/-- Both arrays after the sieve over the primes up to the square root of `x`. -/
theorem sieve_primeList (env : Env) (fuel x : Nat) (primes : List Nat) (hx1 : 1 ≤ x)
    (hx : x < U32) (hf : x < fuel) (hP : IsPrimeList (Nat.sqrt x) primes) :
    ∃ mem, sieve env fuel x primes = some mem ∧ mem.Sized x ∧
      ∀ i, 1 ≤ i → i ≤ x →
        mem.cnt i = (primes.map (fun p => i.factorization p)).sum ∧
        mem.prd i = (primes.map (fun p => p ^ i.factorization p)).prod := by
  obtain ⟨hprime, hrange⟩ := primeList_entries x primes hx hP
  obtain ⟨mem, hm, hs, hc⟩ := sieve_spec env fuel x primes hx1 hx hf hrange
  refine ⟨mem, hm, hs, ?_⟩
  intro i hi1 hix
  obtain ⟨h1, h2⟩ := hc i hi1 hix
  obtain ⟨hdvd, hpow, -, -⟩ := primeList_math x i primes hP hi1 hix
  rw [visits_eq x fuel i primes hprime hi1 hix hf] at h1
  rw [visitProduct_eq x fuel i primes hprime hi1 hix hf] at h2
  have hle : (primes.map (fun p => p ^ i.factorization p)).prod ≤ i :=
    Nat.le_of_dvd (by omega) hdvd
  have hlt : (primes.map (fun p => p ^ i.factorization p)).prod < U32 := by omega
  have hc8 : (primes.map (fun p => i.factorization p)).sum < U8 := by
    have h3 : 2 ^ (primes.map (fun p => i.factorization p)).sum < 2 ^ 32 := by
      have : U32 = 2 ^ 32 := rfl
      omega
    have h4 := (Nat.pow_lt_pow_iff_right (by norm_num : 1 < 2)).mp h3
    have : U8 = 256 := rfl
    omega
  rw [Nat.mod_eq_of_lt hc8] at h1
  rw [Nat.mod_eq_of_lt hlt] at h2
  exact ⟨h1, h2⟩

/-- The test of line 85 holds exactly at the indices with two prime factors. -/
theorem isSemiprimeTest_iff (x i c q : Nat) (primes : List Nat)
    (hP : IsPrimeList (Nat.sqrt x) primes) (hi1 : 1 ≤ i) (hix : i ≤ x)
    (hc : c = (primes.map (fun p => i.factorization p)).sum)
    (hp : q = (primes.map (fun p => p ^ i.factorization p)).prod) :
    isSemiprimeTest c q i = true ↔ ArithmeticFunction.cardFactors i = 2 := by
  obtain ⟨-, -, hsmooth, hlarge⟩ := primeList_math x i primes hP hi1 hix
  rw [← hc, ← hp] at hsmooth hlarge
  unfold isSemiprimeTest
  simp only [Bool.or_eq_true, Bool.and_eq_true, beq_iff_eq, decide_eq_true_eq]
  by_cases h : ∀ q, q.Prime → q ∣ i → q ≤ Nat.sqrt x
  · obtain ⟨h1, h2⟩ := hsmooth h
    rw [h1, h2]
    constructor
    · rintro (⟨h3, -⟩ | ⟨-, h3⟩)
      · exact h3
      · omega
    · intro h3; exact Or.inl ⟨h3, rfl⟩
  · push_neg at h
    obtain ⟨r, hr, hrd, hrl⟩ := h
    obtain ⟨h1, h2⟩ := hlarge r hr hrd hrl
    have hr2 := hr.two_le
    have hlt : q < i := by
      have hpos : 0 < q := by
        rcases Nat.eq_zero_or_pos q with h0 | h0
        · rw [h0] at h2; omega
        · exact h0
      nlinarith
    constructor
    · rintro (⟨-, h3⟩ | ⟨h3, -⟩)
      · omega
      · omega
    · intro h3; exact Or.inr ⟨by omega, hlt⟩

theorem filter_eq_semiprimesUpTo (x : Nat) (f : Nat → Bool)
    (h : ∀ i, 4 ≤ i → i ≤ x → (f i = true ↔ ArithmeticFunction.cardFactors i = 2)) :
    (List.range' 4 (x - 3)).filter f = semiprimesUpTo x := by
  unfold semiprimesUpTo
  apply List.filter_congr
  intro i hi
  rw [List.mem_range'_1] at hi
  have h := h i (by omega) (by omega)
  by_cases hb : ArithmeticFunction.cardFactors i = 2
  · rw [h.mpr hb, decide_eq_true hb]
  · have : f i = false := by
      cases ht : f i
      · rfl
      · exact absurd (h.mp ht) hb
    rw [this, decide_eq_false hb]

theorem hits_eq (x : Nat) (primes : List Nat) (mem : Mem)
    (hP : IsPrimeList (Nat.sqrt x) primes)
    (hc : ∀ i, 1 ≤ i → i ≤ x →
      mem.cnt i = (primes.map (fun p => i.factorization p)).sum ∧
      mem.prd i = (primes.map (fun p => p ^ i.factorization p)).prod) :
    mem.hits x = semiprimesUpTo x :=
  filter_eq_semiprimesUpTo x mem.test (fun i h4 hix =>
    isSemiprimeTest_iff x i _ _ primes hP (by omega) hix
      (hc i (by omega) hix).1 (hc i (by omega) hix).2)

/-- The value of `x` that `main` computes from an argument in range. -/
theorem arg_in_range (X : Nat) (hX : X < U32) : (((X : Int) % (U32 : Int)).toNat) = X := by
  have : ((X : Int) % (U32 : Int)) = ((X % U32 : Nat) : Int) := by push_cast; rfl
  rw [this, Int.toNat_ofNat, Nat.mod_eq_of_lt hX]

/-- The outcome of `main` for an argument in range. -/
theorem main_spec (env : Env) (fuel X : Nat) (argv2 : Option String) (hX4 : 4 ≤ X)
    (hX : X < U32) (hgood : env.Good X) (hf : X + 2 ≤ fuel) :
    main env fuel (some (X : Int)) argv2 = some (Outcome.found
      (if justtotalsFlag argv2 then [] else semiprimesUpTo X)
      (semiprimesUpTo X).length (semiprimesUpTo X).sum X) := by
  obtain ⟨hseed, hP⟩ := hgood
  obtain ⟨mem, hm, hs, hc⟩ := sieve_primeList env fuel X _ (by omega) hX (by omega) hP
  have hh := hits_eq X _ mem hP hc
  unfold main
  simp only [arg_in_range X hX]
  rw [if_neg (by simp; omega), isqrt_eq_sqrt X hX fuel _ (fun _ => hseed) hf]
  simp only [hm, classify_spec fuel X mem _ hX4 hX (by omega) hs, hh]

/-! ## The reference environment -/

theorem noDivisorFrom_iff (n : Nat) :
    ∀ (fuel d : Nat), noDivisorFrom n fuel d = true ↔
      ∀ m, d ≤ m → m < d + fuel → m * m ≤ n → ¬ m ∣ n := by
  intro fuel
  induction fuel with
  | zero =>
    intro d
    simp only [noDivisorFrom, true_iff]
    intro m h1 h2; omega
  | succ fuel ih =>
    intro d
    unfold noDivisorFrom
    by_cases h1 : n < d * d
    · rw [if_pos h1]
      simp only [true_iff]
      intro m hdm _ hmm
      have : d * d ≤ m * m := Nat.mul_le_mul hdm hdm
      omega
    · rw [if_neg h1]
      by_cases h2 : n % d = 0
      · rw [if_pos h2]
        simp only [Bool.false_eq_true, false_iff]
        intro h
        exact h d (le_refl d) (by omega) (by omega) (Nat.dvd_of_mod_eq_zero h2)
      · rw [if_neg h2, ih (d + 1)]
        constructor
        · intro h m hdm hlt hmm
          rcases Nat.eq_or_lt_of_le hdm with heq | hlt2
          · subst heq
            exact fun hd => h2 (Nat.mod_eq_zero_of_dvd hd)
          · exact h m hlt2 (by omega) hmm
        · intro h m hdm hlt hmm
          exact h m (by omega) (by omega) hmm

theorem isPrimeTD_iff (n : Nat) : isPrimeTD n = true ↔ n.Prime := by
  unfold isPrimeTD
  rw [Bool.and_eq_true, decide_eq_true_eq, noDivisorFrom_iff, Nat.prime_def_le_sqrt]
  constructor
  · rintro ⟨h2, h⟩
    refine ⟨h2, fun m hm hms => h m hm ?_ (Nat.le_sqrt.mp hms)⟩
    have : m ≤ n := le_trans hms (Nat.sqrt_le_self n)
    omega
  · rintro ⟨h2, h⟩
    exact ⟨h2, fun m hm _ hmm => h m hm (Nat.le_sqrt.mpr hmm)⟩

/-- The modelled prime source honours the contract of the prime list. -/
theorem primesUpTo_isPrimeList (B : Nat) : IsPrimeList B (primesUpTo B) := by
  constructor
  · exact List.Pairwise.filter _ (List.sorted_lt_range (B + 1))
  · intro p
    unfold primesUpTo
    rw [List.mem_filter, List.mem_range, isPrimeTD_iff]
    constructor
    · rintro ⟨h1, h2⟩; exact ⟨h2, by omega⟩
    · rintro ⟨h1, h2⟩; exact ⟨by omega, h1⟩

/-- The contract determines the prime list. -/
theorem IsPrimeList.eq_primesUpTo (B : Nat) (primes : List Nat) (h : IsPrimeList B primes) :
    primes = primesUpTo B := by
  have h' := primesUpTo_isPrimeList B
  apply List.eq_of_perm_of_sorted _ h.1 h'.1
  apply List.perm_of_nodup_nodup_toFinset_eq h.1.nodup h'.1.nodup
  ext p
  rw [List.mem_toFinset, List.mem_toFinset, h.2, h'.2]

theorem refEnv_good (X : Nat) (hX : 1 ≤ X) : refEnv.Good X :=
  ⟨⟨hX, le_refl X⟩, primesUpTo_isPrimeList (Nat.sqrt X)⟩

/-! ## Evaluation of the specification by trial division -/

theorem prime_of_no_small_factor (m : Nat) (hm : 2 ≤ m)
    (h : ∀ q, q.Prime → q ∣ m → ¬ q * q ≤ m) : m.Prime := by
  by_contra hnp
  have h1 : (Nat.minFac m).Prime := Nat.minFac_prime (by omega)
  have h2 : Nat.minFac m ∣ m := Nat.minFac_dvd m
  have h3 : Nat.minFac m ^ 2 ≤ m := Nat.minFac_sq_le_self (by omega) hnp
  rw [pow_two] at h3
  exact h _ h1 h2 h3

theorem ble_false {a b : Nat} (h : Nat.ble a b = false) : ¬ a ≤ b := by
  intro hle
  rw [Nat.ble_eq_true_of_le hle] at h
  cases h

theorem beq_false {a b : Nat} (h : Nat.beq a b = false) : ¬ a = b := by
  intro heq
  subst heq
  rw [Nat.beq_refl] at h
  cases h

theorem cofactorPrime_iff (m : Nat) (hm : 2 ≤ m) :
    ∀ ps : List Nat, ps.Sorted (· < ·) → (∀ p ∈ ps, p.Prime) →
      (∀ q, q.Prime → q ∣ m → q * q ≤ m → q ∈ ps) →
      (cofactorPrime m ps = true ↔ m.Prime) := by
  intro ps
  induction ps with
  | nil =>
    intro _ _ hcov
    simp only [cofactorPrime, true_iff]
    exact prime_of_no_small_factor m hm (fun q hq hd hle => by
      have := hcov q hq hd hle
      simp at this)
  | cons p ps ih =>
    intro hsort hprime hcov
    have hp : p.Prime := hprime p (List.mem_cons_self p ps)
    have hp2 := hp.two_le
    unfold cofactorPrime
    cases h1 : Nat.ble (p * p) m with
    | false =>
      have hlt := ble_false h1
      simp only [true_iff]
      apply prime_of_no_small_factor m hm
      intro q hq hd hle
      have hmem := hcov q hq hd hle
      have hpq : p ≤ q := by
        rcases List.mem_cons.mp hmem with heq | hin
        · omega
        · exact le_of_lt (List.rel_of_sorted_cons hsort q hin)
      have : p * p ≤ q * q := Nat.mul_le_mul hpq hpq
      omega
    | true =>
      have hle : p * p ≤ m := Nat.le_of_ble_eq_true h1
      cases h2 : Nat.beq (m % p) 0 with
      | true =>
        have hd : p ∣ m := Nat.dvd_of_mod_eq_zero (Nat.eq_of_beq_eq_true h2)
        simp only [Bool.false_eq_true, false_iff]
        intro hmp
        have heq : p = m := (Nat.prime_dvd_prime_iff_eq hp hmp).mp hd
        subst heq
        nlinarith
      | false =>
        have hnd : ¬ p ∣ m := fun hd => beq_false h2 (Nat.mod_eq_zero_of_dvd hd)
        apply ih (List.Sorted.of_cons hsort)
          (fun q hq => hprime q (List.mem_cons_of_mem p hq))
        intro q hq hd hqq
        rcases List.mem_cons.mp (hcov q hq hd hqq) with heq | hin
        · subst heq; exact absurd hd hnd
        · exact hin

theorem twoFactors_iff (i : Nat) (hi : 2 ≤ i) :
    ∀ ps : List Nat, ps.Sorted (· < ·) → (∀ p ∈ ps, p.Prime) →
      (∀ q, q.Prime → q ∣ i → q * q ≤ i → q ∈ ps) →
      (twoFactors i ps = true ↔ ArithmeticFunction.cardFactors i = 2) := by
  have hprime_no : i.Prime → ¬ ArithmeticFunction.cardFactors i = 2 := fun h => by
    rw [ArithmeticFunction.cardFactors_apply_prime h]; omega
  intro ps
  induction ps with
  | nil =>
    intro _ _ hcov
    simp only [twoFactors, Bool.false_eq_true, false_iff]
    exact hprime_no (prime_of_no_small_factor i hi (fun q hq hd hle => by
      have := hcov q hq hd hle
      simp at this))
  | cons p ps ih =>
    intro hsort hprime hcov
    have hp : p.Prime := hprime p (List.mem_cons_self p ps)
    have hp2 := hp.two_le
    unfold twoFactors
    cases h1 : Nat.ble (p * p) i with
    | false =>
      have hlt := ble_false h1
      simp only [Bool.false_eq_true, false_iff]
      apply hprime_no
      apply prime_of_no_small_factor i hi
      intro q hq hd hle
      have hmem := hcov q hq hd hle
      have hpq : p ≤ q := by
        rcases List.mem_cons.mp hmem with heq | hin
        · omega
        · exact le_of_lt (List.rel_of_sorted_cons hsort q hin)
      have : p * p ≤ q * q := Nat.mul_le_mul hpq hpq
      omega
    | true =>
      have hle : p * p ≤ i := Nat.le_of_ble_eq_true h1
      cases h2 : Nat.beq (i % p) 0 with
      | true =>
        have hd : p ∣ i := Nat.dvd_of_mod_eq_zero (Nat.eq_of_beq_eq_true h2)
        have hmul : p * (i / p) = i := Nat.mul_div_cancel' hd
        have hm2 : 2 ≤ i / p := by
          have : p ≤ i / p := (Nat.le_div_iff_mul_le (by omega)).mpr hle
          omega
        have hcof := cofactorPrime_iff (i / p) hm2 (p :: ps) hsort hprime
          (fun q hq hqd hqq => hcov q hq (dvd_trans hqd (Nat.div_dvd_of_dvd hd))
            (le_trans hqq (Nat.div_le_self i p)))
        have hom : ArithmeticFunction.cardFactors i =
            1 + ArithmeticFunction.cardFactors (i / p) := by
          conv_lhs => rw [← hmul]
          rw [ArithmeticFunction.cardFactors_mul (by omega) (by omega),
            ArithmeticFunction.cardFactors_apply_prime hp]
        simp only []
        rw [hcof, hom, ← ArithmeticFunction.cardFactors_eq_one_iff_prime]
        omega
      | false =>
        have hnd : ¬ p ∣ i := fun hd => beq_false h2 (Nat.mod_eq_zero_of_dvd hd)
        apply ih (List.Sorted.of_cons hsort)
          (fun q hq => hprime q (List.mem_cons_of_mem p hq))
        intro q hq hd hqq
        rcases List.mem_cons.mp (hcov q hq hd hqq) with heq | hin
        · subst heq; exact absurd hd hnd
        · exact hin

theorem force_eq {α : Type} (n : Nat) (k : Nat → α) : force n k = k n := by
  cases n <;> rfl

theorem tallyLoop_eq (f : Nat → Bool) :
    ∀ fuel i n s, tallyLoop f fuel i n s =
      (n + ((List.range' i fuel).filter f).length, s + ((List.range' i fuel).filter f).sum) := by
  intro fuel
  induction fuel with
  | zero => intro i n s; rfl
  | succ fuel ih =>
    intro i n s
    unfold tallyLoop
    cases h : f i with
    | true =>
      simp only [force_eq, ih, List.range'_succ, List.filter_cons, h, if_true,
        List.length_cons, List.sum_cons]
      congr 1 <;> omega
    | false =>
      simp only [force_eq, ih, List.range'_succ, List.filter_cons, h]
      simp

/-- The semiprimes up to `x` by trial division with the primes up to `r`. -/
theorem semiprimesUpTo_eq (x r : Nat) (primes : List Nat)
    (hr : x < (r + 1) * (r + 1)) (hprimes : primesUpTo r = primes) :
    semiprimesUpTo x = (List.range' 4 (x - 3)).filter (fun i => twoFactors i primes) := by
  subst hprimes
  have hP := primesUpTo_isPrimeList r
  symm
  apply filter_eq_semiprimesUpTo
  intro i h4 hix
  apply twoFactors_iff i (by omega) _ hP.1 (fun p hp => ((hP.2 p).mp hp).1)
  intro q hq _ hqq
  apply (hP.2 q).mpr ⟨hq, ?_⟩
  by_contra hlt
  have : (r + 1) * (r + 1) ≤ q * q := Nat.mul_le_mul (by omega) (by omega)
  omega

theorem semiprimesUpTo_tally (x r n s : Nat) (primes : List Nat)
    (hr : x < (r + 1) * (r + 1)) (hprimes : primesUpTo r = primes)
    (h : tallyLoop (fun i => twoFactors i primes) (x - 3) 4 0 0 = (n, s)) :
    (semiprimesUpTo x).length = n ∧ (semiprimesUpTo x).sum = s := by
  rw [semiprimesUpTo_eq x r primes hr hprimes]
  rw [tallyLoop_eq] at h
  simp only [Nat.zero_add, Prod.mk.injEq] at h
  exact h

theorem primesUpTo_2 : primesUpTo 2 = [2] := by decide
theorem primesUpTo_3 : primesUpTo 3 = [2, 3] := by decide
theorem primesUpTo_10 : primesUpTo 10 = [2, 3, 5, 7] := by decide
theorem primesUpTo_31 : primesUpTo 31 = [2, 3, 5, 7, 11, 13, 17, 19, 23, 29, 31] := by decide!
theorem primesUpTo_100 : primesUpTo 100 = [2, 3, 5, 7, 11, 13, 17, 19, 23, 29, 31, 37, 41,
    43, 47, 53, 59, 61, 67, 71, 73, 79, 83, 89, 97] := by decide!

theorem semiprimes_4 : semiprimesUpTo 4 = [4] := by
  rw [semiprimesUpTo_eq 4 2 _ (by decide) primesUpTo_2]
  decide

theorem semiprimes_10 : (semiprimesUpTo 10).length = 4 ∧ (semiprimesUpTo 10).sum = 29 :=
  semiprimesUpTo_tally 10 3 4 29 _ (by decide) primesUpTo_3 (by decide!)

theorem semiprimes_100 : (semiprimesUpTo 100).length = 34 ∧ (semiprimesUpTo 100).sum = 1707 :=
  semiprimesUpTo_tally 100 10 34 1707 _ (by decide) primesUpTo_10 (by decide!)

theorem semiprimes_1000 :
    (semiprimesUpTo 1000).length = 299 ∧ (semiprimesUpTo 1000).sum = 146158 :=
  semiprimesUpTo_tally 1000 31 299 146158 _ (by decide) primesUpTo_31 (by decide!)

theorem semiprimes_10000 :
    (semiprimesUpTo 10000).length = 2625 ∧ (semiprimesUpTo 10000).sum = 12736914 :=
  semiprimesUpTo_tally 10000 100 2625 12736914 _ (by decide) primesUpTo_100 (by decide!)

/-! ## The arrays keep their size -/

theorem visit_sized (mem mem1 : Mem) (x m p : Nat) (h : mem.visit m p = some mem1)
    (hs : mem.Sized x) : mem1.Sized x := by
  unfold Mem.visit at h
  split at h
  · injection h with h
    subst h
    exact ⟨by simp [hs.1], by simp [hs.2]⟩
  · cases h

theorem multiplesLoop_sized (x p pw : Nat) :
    ∀ (fuel m : Nat) (mem mem1 : Mem), multiplesLoop x p pw fuel m mem = some mem1 →
      mem.Sized x → mem1.Sized x := by
  intro fuel
  induction fuel with
  | zero => intro m mem mem1 h; cases h
  | succ fuel ih =>
    intro m mem mem1 h hs
    unfold multiplesLoop at h
    split at h
    · split at h
      · cases h
      · rename_i mem2 hv
        exact ih _ mem2 mem1 h (visit_sized mem mem2 x m p hv hs)
    · injection h with h
      subst h; exact hs

theorem powersLoop_sized (x p : Nat) :
    ∀ (fuel pw : Nat) (mem mem1 : Mem), powersLoop x p fuel pw mem = some mem1 →
      mem.Sized x → mem1.Sized x := by
  intro fuel
  induction fuel with
  | zero => intro pw mem mem1 h; cases h
  | succ fuel ih =>
    intro pw mem mem1 h hs
    unfold powersLoop at h
    split at h
    · split at h
      · cases h
      · rename_i mem2 hm
        exact ih _ mem2 mem1 h (multiplesLoop_sized x p pw _ _ mem mem2 hm hs)
    · injection h with h
      subst h; exact hs

theorem primesLoop_sized (x fuel : Nat) :
    ∀ (primes : List Nat) (mem mem1 : Mem), primesLoop x fuel primes mem = some mem1 →
      mem.Sized x → mem1.Sized x := by
  intro primes
  induction primes with
  | nil =>
    intro mem mem1 h hs
    unfold primesLoop at h
    injection h with h
    subst h; exact hs
  | cons p rest ih =>
    intro mem mem1 h hs
    unfold primesLoop at h
    split at h
    · cases h
    · rename_i mem2 hp
      exact ih mem2 mem1 h (powersLoop_sized x p fuel _ mem mem2 hp hs)

theorem initProducts_length (x : Nat) :
    ∀ (fuel i : Nat) (l l1 : List Nat), initProducts x fuel i l = some l1 →
      l1.length = l.length := by
  intro fuel
  induction fuel with
  | zero => intro i l l1 h; cases h
  | succ fuel ih =>
    intro i l l1 h
    unfold initProducts at h
    split at h
    · cases h
    · split at h
      · injection h with h
        subst h; simp
      · rw [ih _ _ _ h]; simp

/-- Whatever the prime list, the arrays that the sieve returns have `x + 1` cells. -/
theorem sieve_sized (env : Env) (fuel x : Nat) (primes : List Nat) (mem : Mem)
    (h : sieve env fuel x primes = some mem) : mem.Sized x := by
  unfold sieve at h
  split at h
  · cases h
  · rename_i products hi
    apply primesLoop_sized x fuel primes _ mem h
    exact ⟨by simp, by rw [initProducts_length x _ _ _ _ hi]; simp⟩

/-! ## The list of semiprimes -/

theorem hits_sorted (mem : Mem) (x : Nat) : (mem.hits x).Sorted (· < ·) :=
  List.Pairwise.filter _ (List.pairwise_lt_range' 4 (x - 3))

theorem mem_semiprimesUpTo (X i : Nat) (hX : 4 ≤ X) :
    i ∈ semiprimesUpTo X ↔ 4 ≤ i ∧ i ≤ X ∧ ArithmeticFunction.cardFactors i = 2 := by
  unfold semiprimesUpTo
  rw [List.mem_filter, List.mem_range'_1, decide_eq_true_eq]
  constructor
  · rintro ⟨⟨h1, h2⟩, h3⟩; exact ⟨h1, by omega, h3⟩
  · rintro ⟨h1, h2, h3⟩; exact ⟨⟨h1, by omega⟩, h3⟩

theorem semiprimesUpTo_nodup (X : Nat) : (semiprimesUpTo X).Nodup :=
  List.Nodup.filter _ (List.nodup_range' 4 (X - 3))

theorem semiprimesUpTo_toFinset (X : Nat) (hX : 4 ≤ X) :
    (semiprimesUpTo X).toFinset =
      (Finset.Icc 4 X).filter (fun i => ArithmeticFunction.cardFactors i = 2) := by
  ext i
  rw [List.mem_toFinset, mem_semiprimesUpTo X i hX, Finset.mem_filter, Finset.mem_Icc]
  tauto

theorem semiprimesUpTo_length (X : Nat) (hX : 4 ≤ X) :
    (semiprimesUpTo X).length =
      ((Finset.Icc 4 X).filter (fun i => ArithmeticFunction.cardFactors i = 2)).card := by
  rw [← semiprimesUpTo_toFinset X hX, List.toFinset_card_of_nodup (semiprimesUpTo_nodup X)]

theorem semiprimesUpTo_sum (X : Nat) (hX : 4 ≤ X) :
    (semiprimesUpTo X).sum =
      ∑ i in (Finset.Icc 4 X).filter (fun i => ArithmeticFunction.cardFactors i = 2), i := by
  rw [← semiprimesUpTo_toFinset X hX, List.sum_toFinset _ (semiprimesUpTo_nodup X)]
  simp

theorem semiprimesUpTo_length_lt (X : Nat) (hX : X < U32) : (semiprimesUpTo X).length < U32 := by
  have := range'_filter_length_le
    (fun i => decide (ArithmeticFunction.cardFactors i = 2)) 4 (X - 3)
  unfold semiprimesUpTo
  omega

theorem semiprimesUpTo_sum_lt (X : Nat) (hX4 : 4 ≤ X) (hX : X < U32) :
    (semiprimesUpTo X).sum < U64 := by
  have h1 : (semiprimesUpTo X).length ≤ X - 3 := range'_filter_length_le _ 4 (X - 3)
  have h2 : (semiprimesUpTo X).sum ≤ (semiprimesUpTo X).length * X :=
    sum_le_of_forall_le _ _ (fun v hv => ((mem_semiprimesUpTo X v hX4).mp hv).2.1)
  have h3 : (semiprimesUpTo X).length * X ≤ X * X := Nat.mul_le_mul_right X (by omega)
  have h4 : X * X < U32 * U32 := Nat.mul_lt_mul'' hX hX
  have h5 : U32 * U32 = U64 := by decide
  omega

/-- The semiprimes up to a larger bound continue the semiprimes up to a smaller one. -/
theorem semiprimesUpTo_append (X X' : Nat) (hX : 4 ≤ X) (hXX : X < X') :
    semiprimesUpTo X' = semiprimesUpTo X ++
      (List.range' (X + 1) (X' - X)).filter
        (fun i => decide (ArithmeticFunction.cardFactors i = 2)) := by
  unfold semiprimesUpTo
  rw [← List.filter_append]
  congr 1
  have h := List.range'_append 4 (X - 3) (X' - X) 1
  have h1 : 4 + 1 * (X - 3) = X + 1 := by omega
  have h2 : X' - X + (X - 3) = X' - 3 := by omega
  rw [h1, h2] at h
  exact h.symm

theorem semiprimesUpTo_filter_le (X X' : Nat) (hX : 4 ≤ X) (hXX : X < X') :
    (semiprimesUpTo X').filter (fun v => decide (v ≤ X)) = semiprimesUpTo X := by
  rw [semiprimesUpTo_append X X' hX hXX, List.filter_append]
  have h1 : (semiprimesUpTo X).filter (fun v => decide (v ≤ X)) = semiprimesUpTo X := by
    rw [List.filter_eq_self]
    intro v hv
    exact decide_eq_true ((mem_semiprimesUpTo X v hX).mp hv).2.1
  have h2 : ((List.range' (X + 1) (X' - X)).filter
      (fun i => decide (ArithmeticFunction.cardFactors i = 2))).filter
      (fun v => decide (v ≤ X)) = [] := by
    rw [List.filter_eq_nil_iff]
    intro v hv
    rw [List.mem_filter, List.mem_range'_1] at hv
    rw [decide_eq_true_eq]
    omega
  rw [h1, h2, List.append_nil]

/-! ## The argument of `main` -/

theorem main_usage_iff (env : Env) (fuel : Nat) (argv1 : Option Int) (argv2 : Option String) :
    main env fuel argv1 argv2 = some Outcome.usage ↔
      (argv1 = none ∨ ∃ v, argv1 = some v ∧ (v % (2 ^ 32 : Int)).toNat < 4) := by
  unfold main
  cases argv1 with
  | none => simp
  | some v =>
    have hU : (U32 : Int) = (2 ^ 32 : Int) := by norm_num [U32]
    simp only [hU, reduceCtorEq, or_false, false_or, Option.some.injEq, exists_eq_left']
    generalize (v % (2 ^ 32 : Int)).toNat = x
    by_cases h : x < 4
    · rw [if_pos h]
      exact ⟨fun _ => h, fun _ => rfl⟩
    · rw [if_neg h]
      refine ⟨fun hc => ?_, fun hc => absurd hc h⟩
      split at hc
      · cases hc
      · split at hc
        · cases hc
        · split at hc
          · cases hc
          · cases hc

/-- The run depends on the argument through its reduction modulo `2^32` only. -/
theorem main_reduced (env : Env) (fuel : Nat) (v : Int) (argv2 : Option String) :
    main env fuel (some v) argv2 = main env fuel (some (v % (2 ^ 32 : Int))) argv2 := by
  have hU : (U32 : Int) = (2 ^ 32 : Int) := by norm_num [U32]
  have h : (v % (2 ^ 32 : Int)) % (U32 : Int) = v % (U32 : Int) := by
    rw [hU]
    exact Int.emod_emod_of_dvd v (dvd_refl _)
  unfold main
  simp only [h, reduceCtorEq, or_false]

/-! ## The claims of the specification -/

theorem isSemiprimeTest_eq_true (c q i : Nat) :
    isSemiprimeTest c q i = true ↔ ((c = 2 ∧ q = i) ∨ (c = 1 ∧ q < i)) := by
  unfold isSemiprimeTest
  simp only [Bool.or_eq_true, Bool.and_eq_true, beq_iff_eq, decide_eq_true_eq]

theorem sqrt_four : Nat.sqrt 4 = 2 := (Nat.eq_sqrt.mpr ⟨by decide, by decide⟩).symm

/-- C1. For every bound `X` with `4 ≤ X < 2^32`, when the prime list is the strictly
increasing list of all primes up to the integer square root of `X` (and the seed of
`isqrt` lies between `1` and `X`), the sieve and the scan return, the values printed
by the scan are exactly the integers `i` of `[4, X]` with two prime factors counted
with multiplicity, in increasing order, and at every index `i` of `[4, X]` the test
of line 85, `(counts[i] == 2 && products[i] == i) || (counts[i] == 1 && products[i] < i)`,
holds after the sieve if and only if `i` has two prime factors. -/
theorem C1_emitted_iff_semiprime (env : Env) (fuel X : Nat) (hX4 : 4 ≤ X)
    (hX : X < 2 ^ 32) (hgood : env.Good X) (hfuel : X + 2 ≤ fuel) :
    ∃ mem emitted n s,
      sieve env fuel X (env.Mairsonsprimesieve (Nat.sqrt X)) = some mem ∧
      main env fuel (some (X : Int)) none = some (Outcome.found emitted n s X) ∧
      emitted.Sorted (· < ·) ∧
      (∀ i, i ∈ emitted ↔ 4 ≤ i ∧ i ≤ X ∧ ArithmeticFunction.cardFactors i = 2) ∧
      (∀ i, 4 ≤ i → i ≤ X → ∃ c q,
        mem.counts[i]? = some c ∧ mem.products[i]? = some q ∧
        (((c = 2 ∧ q = i) ∨ (c = 1 ∧ q < i)) ↔ ArithmeticFunction.cardFactors i = 2)) := by
  have hX' : X < U32 := hX
  obtain ⟨mem, hm, hs, hc⟩ :=
    sieve_primeList env fuel X _ (by omega) hX' (by omega) hgood.2
  refine ⟨mem, semiprimesUpTo X, (semiprimesUpTo X).length, (semiprimesUpTo X).sum, hm,
    ?_, ?_, ?_, ?_⟩
  · exact main_spec env fuel X none hX4 hX' hgood hfuel
  · exact List.Pairwise.filter _ (List.pairwise_lt_range' 4 (X - 3))
  · exact fun i => mem_semiprimesUpTo X i hX4
  · intro i hi4 hiX
    refine ⟨mem.cnt i, mem.prd i, Mem.counts_getElem? mem X i hs hiX,
      Mem.products_getElem? mem X i hs hiX, ?_⟩
    rw [← isSemiprimeTest_eq_true]
    exact isSemiprimeTest_iff X i _ _ _ hgood.2 (by omega) hiX
      (hc i (by omega) hiX).1 (hc i (by omega) hiX).2

/-- C1 at the bound `X = 4` in the reference environment. -/
theorem C1_emitted_iff_semiprime_witness :
    refEnv.Good 4 ∧
    ∃ mem emitted n s,
      sieve refEnv 6 4 (refEnv.Mairsonsprimesieve (Nat.sqrt 4)) = some mem ∧
      main refEnv 6 (some ((4 : Nat) : Int)) none = some (Outcome.found emitted n s 4) ∧
      emitted.Sorted (· < ·) ∧
      (∀ i, i ∈ emitted ↔ 4 ≤ i ∧ i ≤ 4 ∧ ArithmeticFunction.cardFactors i = 2) ∧
      (∀ i, 4 ≤ i → i ≤ 4 → ∃ c q,
        mem.counts[i]? = some c ∧ mem.products[i]? = some q ∧
        (((c = 2 ∧ q = i) ∨ (c = 1 ∧ q < i)) ↔ ArithmeticFunction.cardFactors i = 2)) :=
  ⟨refEnv_good 4 (by decide),
    C1_emitted_iff_semiprime refEnv 6 4 (by decide) (by decide) (refEnv_good 4 (by decide))
      (by decide)⟩

/-- C2. For every `X` with `4 ≤ X < 2^32` (prime list: all primes up to the integer
square root of `X`), in both output modes, the reported `numsemiprimes` is the exact
number of integers of `[4, X]` with two prime factors counted with multiplicity and
the reported `sumsemiprimes` is their exact sum: the 32 bit and the 64 bit
accumulator, which the model reduces modulo `2^32` and `2^64`, do not wrap. -/
theorem C2_count_and_sum_exact (env : Env) (fuel X : Nat) (argv2 : Option String)
    (hX4 : 4 ≤ X) (hX : X < 2 ^ 32) (hgood : env.Good X) (hfuel : X + 2 ≤ fuel) :
    ∃ printed n s,
      main env fuel (some (X : Int)) argv2 = some (Outcome.found printed n s X) ∧
      n = ((Finset.Icc 4 X).filter (fun i => ArithmeticFunction.cardFactors i = 2)).card ∧
      s = ∑ i in (Finset.Icc 4 X).filter (fun i => ArithmeticFunction.cardFactors i = 2), i ∧
      n < 2 ^ 32 ∧ s < 2 ^ 64 := by
  have hX' : X < U32 := hX
  refine ⟨_, _, _, main_spec env fuel X argv2 hX4 hX' hgood hfuel,
    semiprimesUpTo_length X hX4, semiprimesUpTo_sum X hX4, ?_, ?_⟩
  · exact semiprimesUpTo_length_lt X hX'
  · exact semiprimesUpTo_sum_lt X hX4 hX'

/-- C2 at the bound `X = 10` in the reference environment, totals only. -/
theorem C2_count_and_sum_exact_witness :
    refEnv.Good 10 ∧
    ∃ printed n s,
      main refEnv 12 (some ((10 : Nat) : Int)) (some "--justtotals") =
        some (Outcome.found printed n s 10) ∧
      n = ((Finset.Icc 4 10).filter (fun i => ArithmeticFunction.cardFactors i = 2)).card ∧
      s = ∑ i in (Finset.Icc 4 10).filter (fun i => ArithmeticFunction.cardFactors i = 2), i ∧
      n < 2 ^ 32 ∧ s < 2 ^ 64 :=
  ⟨refEnv_good 10 (by decide),
    C2_count_and_sum_exact refEnv 12 10 (some "--justtotals") (by decide) (by decide)
      (refEnv_good 10 (by decide)) (by decide)⟩

/-- C3. `isqrt` returns the integer square root: for every `n < 2^32` and every
starting estimate `s` standing in for the floating point seed (`1 ≤ s ≤ n` when
`n ≥ 2`), `isqrt` returns a value `a` with `a * a ≤ n < (a + 1) * (a + 1)`; for
`n < 2` it returns `n` itself. -/
theorem C3_isqrt_correct (n s fuel : Nat) (hn : n < 2 ^ 32)
    (hs : 2 ≤ n → 1 ≤ s ∧ s ≤ n) (hfuel : n + 2 ≤ fuel) :
    ∃ a, isqrt s fuel n = some a ∧ a * a ≤ n ∧ n < (a + 1) * (a + 1) ∧ (n < 2 → a = n) := by
  refine ⟨Nat.sqrt n, isqrt_eq_sqrt n hn fuel s hs hfuel, Nat.sqrt_le n, Nat.lt_succ_sqrt n, ?_⟩
  intro h2
  symm
  rw [Nat.eq_sqrt]
  constructor <;> nlinarith

/-- C3 at `n = 10` from the seed `10`. -/
theorem C3_isqrt_correct_witness :
    ∃ a, isqrt 10 12 10 = some a ∧ a * a ≤ 10 ∧ 10 < (a + 1) * (a + 1) ∧ (10 < 2 → a = 10) :=
  C3_isqrt_correct 10 10 12 (by decide) (fun _ => ⟨by decide, by decide⟩) (by decide)

/-- C4. Regression vectors: with the prime list and the seed that the environment
owes to the bound, the run on `X = 10` reports count 4 and sum 29, on `X = 100`
count 34 and sum 1707, on `X = 1000` count 299 and sum 146158, on `X = 10000` count
2625 and sum 12736914. -/
theorem C4_regression_vectors (env : Env) (fuel : Nat) (argv2 : Option String) :
    (env.Good 10 → 12 ≤ fuel → ∃ printed,
      main env fuel (some 10) argv2 = some (Outcome.found printed 4 29 10)) ∧
    (env.Good 100 → 102 ≤ fuel → ∃ printed,
      main env fuel (some 100) argv2 = some (Outcome.found printed 34 1707 100)) ∧
    (env.Good 1000 → 1002 ≤ fuel → ∃ printed,
      main env fuel (some 1000) argv2 = some (Outcome.found printed 299 146158 1000)) ∧
    (env.Good 10000 → 10002 ≤ fuel → ∃ printed,
      main env fuel (some 10000) argv2 =
        some (Outcome.found printed 2625 12736914 10000)) := by
  refine ⟨fun hg hf => ⟨if justtotalsFlag argv2 then [] else semiprimesUpTo 10, ?_⟩,
    fun hg hf => ⟨if justtotalsFlag argv2 then [] else semiprimesUpTo 100, ?_⟩,
    fun hg hf => ⟨if justtotalsFlag argv2 then [] else semiprimesUpTo 1000, ?_⟩,
    fun hg hf => ⟨if justtotalsFlag argv2 then [] else semiprimesUpTo 10000, ?_⟩⟩
  · have h := main_spec env fuel 10 argv2 (by decide) (by decide) hg hf
    rw [semiprimes_10.1, semiprimes_10.2] at h
    exact h
  · have h := main_spec env fuel 100 argv2 (by decide) (by decide) hg hf
    rw [semiprimes_100.1, semiprimes_100.2] at h
    exact h
  · have h := main_spec env fuel 1000 argv2 (by decide) (by decide) hg hf
    rw [semiprimes_1000.1, semiprimes_1000.2] at h
    exact h
  · have h := main_spec env fuel 10000 argv2 (by decide) (by decide) hg hf
    rw [semiprimes_10000.1, semiprimes_10000.2] at h
    exact h

/-- C4 in the reference environment. -/
theorem C4_regression_vectors_witness :
    (∃ printed, main refEnv 10002 (some 10) none = some (Outcome.found printed 4 29 10)) ∧
    (∃ printed, main refEnv 10002 (some 100) none =
      some (Outcome.found printed 34 1707 100)) ∧
    (∃ printed, main refEnv 10002 (some 1000) none =
      some (Outcome.found printed 299 146158 1000)) ∧
    (∃ printed, main refEnv 10002 (some 10000) none =
      some (Outcome.found printed 2625 12736914 10000)) :=
  ⟨(C4_regression_vectors refEnv 10002 none).1 (refEnv_good 10 (by decide)) (by decide),
    (C4_regression_vectors refEnv 10002 none).2.1 (refEnv_good 100 (by decide)) (by decide),
    (C4_regression_vectors refEnv 10002 none).2.2.1 (refEnv_good 1000 (by decide))
      (by decide),
    (C4_regression_vectors refEnv 10002 none).2.2.2 (refEnv_good 10000 (by decide))
      (by decide)⟩

/-- C5. Boundary `X = 4`: `isqrt` returns 2, the prime list is `[2]`, and the run
prints exactly the one value 4 (nothing in the totals only mode) and reports count 1
and sum 4. -/
theorem C5_boundary_four (env : Env) (fuel : Nat) (argv2 : Option String)
    (hgood : env.Good 4) (hfuel : 6 ≤ fuel) :
    isqrt (env.sqrt 4) fuel 4 = some 2 ∧
    env.Mairsonsprimesieve 2 = [2] ∧
    main env fuel (some 4) none = some (Outcome.found [4] 1 4 4) ∧
    main env fuel (some 4) argv2 =
      some (Outcome.found (if justtotalsFlag argv2 then [] else [4]) 1 4 4) := by
  have hm := fun a => main_spec env fuel 4 a (by decide) (by decide) hgood hfuel
  rw [semiprimes_4] at hm
  refine ⟨?_, ?_, hm none, hm argv2⟩
  · have h := isqrt_eq_sqrt 4 (by decide) fuel (env.sqrt 4) (fun _ => hgood.1) hfuel
    rw [sqrt_four] at h
    exact h
  · have h := hgood.2
    rw [sqrt_four] at h
    rw [IsPrimeList.eq_primesUpTo 2 _ h, primesUpTo_2]

/-- C5 in the reference environment. -/
theorem C5_boundary_four_witness :
    isqrt (refEnv.sqrt 4) 6 4 = some 2 ∧
    refEnv.Mairsonsprimesieve 2 = [2] ∧
    main refEnv 6 (some 4) none = some (Outcome.found [4] 1 4 4) ∧
    main refEnv 6 (some 4) (some "--justtotals") =
      some (Outcome.found (if justtotalsFlag (some "--justtotals") then [] else [4]) 1 4 4) :=
  C5_boundary_four refEnv 6 (some "--justtotals") (refEnv_good 4 (by decide)) (by decide)

/-- C6, as stated, fails: for `X = 3` the run does not yield a result with count 0 and
sum 0.  It ends at the guard of lines 53-56, with the usage text, before
`numsemiprimes` and `sumsemiprimes` exist, and prints no summary line. -/
theorem C6_counterexample :
    main refEnv 5 (some 3) none = some Outcome.usage ∧
    main refEnv 5 (some 3) none ≠ some (Outcome.found [] 0 0 3) := by
  have h : main refEnv 5 (some 3) none = some Outcome.usage := by decide
  refine ⟨h, ?_⟩
  rw [h]
  decide

/-- C6, amended. For every `X < 4` the run ends at the guard of lines 53-56: the usage
text is printed and the process exits with status 0; no value and no summary line,
so no count and no sum, is printed.  No sieve work is done: the outcome is the same in
every environment (the prime source, the seed and the allocator are not consulted)
and with no fuel at all (no loop body is entered). -/
theorem C6_below_four_usage (env : Env) (fuel X : Nat) (argv2 : Option String)
    (hX : X < 4) :
    main env fuel (some (X : Int)) argv2 = some Outcome.usage ∧
    main env 0 (some (X : Int)) argv2 = some Outcome.usage ∧
    ∀ printed n s x,
      main env fuel (some (X : Int)) argv2 ≠ some (Outcome.found printed n s x) := by
  have h : ∀ f, main env f (some (X : Int)) argv2 = some Outcome.usage := fun f =>
    (main_usage_iff env f (some (X : Int)) argv2).mpr (Or.inr ⟨_, rfl, by
      have h32 : X < U32 := by
        have : (4 : Nat) < U32 := by decide
        omega
      have := arg_in_range X h32
      have hU : (U32 : Int) = (2 ^ 32 : Int) := by norm_num [U32]
      rw [hU] at this
      omega⟩)
  refine ⟨h fuel, h 0, ?_⟩
  intro printed n s x hc
  rw [h fuel] at hc
  cases hc

/-- C6, amended, at `X = 3`. -/
theorem C6_below_four_usage_witness :
    main refEnv 5 (some ((3 : Nat) : Int)) none = some Outcome.usage ∧
    main refEnv 0 (some ((3 : Nat) : Int)) none = some Outcome.usage ∧
    ∀ printed n s x,
      main refEnv 5 (some ((3 : Nat) : Int)) none ≠ some (Outcome.found printed n s x) :=
  C6_below_four_usage refEnv 5 3 none (by decide)

/-- C7, as stated, fails: the argument `2^32 + 4` is not an integer of the range
`4 ≤ X < 2^32`, yet `main` does not print the usage text; it runs the sieve with the
bound 4 and reports the one semiprime 4. -/
theorem C7_counterexample :
    ¬ ((4 : Int) ≤ 4294967300 ∧ (4294967300 : Int) < 2 ^ 32) ∧
    main refEnv 6 (some 4294967300) none = some (Outcome.found [4] 1 4 4) ∧
    main refEnv 6 (some 4294967300) none ≠ some Outcome.usage := by
  have h : main refEnv 6 (some 4294967300) none = some (Outcome.found [4] 1 4 4) := by
    decide
  refine ⟨by decide, h, ?_⟩
  rw [h]
  decide

/-- C7, amended. `main` prints the usage text and exits with status 0, without running
the sieve, exactly when the argument is missing or the value of `atol(argv[1])`
reduced modulo `2^32` is below 4; with or without fuel the answer is the same.  An
argument is used through its reduction modulo `2^32` only: the run on the value `v` is
the run on `v` reduced modulo `2^32`. -/
theorem C7_usage_iff (env : Env) (fuel : Nat) (argv1 : Option Int) (argv2 : Option String) :
    (main env fuel argv1 argv2 = some Outcome.usage ↔
      (argv1 = none ∨ ∃ v, argv1 = some v ∧ (v % (2 ^ 32 : Int)).toNat < 4)) ∧
    (main env 0 argv1 argv2 = some Outcome.usage ↔
      main env fuel argv1 argv2 = some Outcome.usage) ∧
    (∀ v, argv1 = some v →
      main env fuel argv1 argv2 = main env fuel (some (v % (2 ^ 32 : Int))) argv2) := by
  refine ⟨main_usage_iff env fuel argv1 argv2, ?_, ?_⟩
  · rw [main_usage_iff env 0 argv1 argv2, main_usage_iff env fuel argv1 argv2]
  · intro v hv
    rw [hv]
    exact main_reduced env fuel v argv2

/-- C8. Monotonicity in the bound: for `4 ≤ X < X' < 2^32`, each run with its own
prime list, the sequence printed for `X` is the sequence printed for `X'` restricted
to the values `≤ X`, and it is a prefix of the sequence printed for `X'`. -/
theorem C8_monotone_in_bound (env : Env) (fuel fuel' X X' : Nat) (hX4 : 4 ≤ X)
    (hXX : X < X') (hX' : X' < 2 ^ 32) (hgood : env.Good X) (hgood' : env.Good X')
    (hfuel : X + 2 ≤ fuel) (hfuel' : X' + 2 ≤ fuel') :
    ∃ emitted n s emitted' n' s',
      main env fuel (some (X : Int)) none = some (Outcome.found emitted n s X) ∧
      main env fuel' (some (X' : Int)) none = some (Outcome.found emitted' n' s' X') ∧
      emitted = emitted'.filter (fun v => decide (v ≤ X)) ∧
      emitted <+: emitted' := by
  have h32 : X' < U32 := hX'
  refine ⟨semiprimesUpTo X, (semiprimesUpTo X).length, (semiprimesUpTo X).sum,
    semiprimesUpTo X', (semiprimesUpTo X').length, (semiprimesUpTo X').sum,
    main_spec env fuel X none hX4 (by omega) hgood hfuel,
    main_spec env fuel' X' none (by omega) h32 hgood' hfuel',
    (semiprimesUpTo_filter_le X X' hX4 hXX).symm, ?_⟩
  rw [semiprimesUpTo_append X X' hX4 hXX]
  exact List.prefix_append _ _

/-- C8 for the bounds 4 and 10 in the reference environment. -/
theorem C8_monotone_in_bound_witness :
    ∃ emitted n s emitted' n' s',
      main refEnv 6 (some ((4 : Nat) : Int)) none = some (Outcome.found emitted n s 4) ∧
      main refEnv 12 (some ((10 : Nat) : Int)) none =
        some (Outcome.found emitted' n' s' 10) ∧
      emitted = emitted'.filter (fun v => decide (v ≤ 4)) ∧
      emitted <+: emitted' :=
  C8_monotone_in_bound refEnv 6 12 4 10 (by decide) (by decide) (by decide)
    (refEnv_good 4 (by decide)) (refEnv_good 10 (by decide)) (by decide) (by decide)

/-- C9. For every `X` with `4 ≤ X` (below `2^32`, as the type of `x` has it) and
every prime list for which the sieve loops have ended, with whatever arrays, the scan
returns; the sequence of the values it prints is strictly increasing, every printed
value lies in `[4, X]`, the reported count is the length of that sequence and the
reported sum is the sum of its entries; the totals only mode reports the same count
and sum. -/
theorem C9_scan_invariants (env : Env) (fuel fuel' X : Nat) (primes : List Nat) (mem : Mem)
    (hX4 : 4 ≤ X) (hX : X < 2 ^ 32) (hsieve : sieve env fuel X primes = some mem)
    (hfuel : X ≤ fuel') :
    ∃ emitted n s,
      classify fuel' X mem false = some ⟨emitted, n, s⟩ ∧
      classify fuel' X mem true = some ⟨[], n, s⟩ ∧
      emitted.Sorted (· < ·) ∧ (∀ v ∈ emitted, 4 ≤ v ∧ v ≤ X) ∧
      n = emitted.length ∧ s = emitted.sum := by
  have hs := sieve_sized env fuel X primes mem hsieve
  refine ⟨mem.hits X, (mem.hits X).length, (mem.hits X).sum, classify_spec fuel' X mem false hX4 hX hfuel hs,
    classify_spec fuel' X mem true hX4 hX hfuel hs, hits_sorted mem X, ?_, rfl, rfl⟩
  intro v hv
  exact ((mem_hits mem X v hX4).mp hv).1

/-- C9 for `X = 6` and the list `[3, 2]`, which is not the list of the primes up to
the square root: the scan prints 4 and 6. -/
theorem C9_scan_invariants_witness :
    sieve refEnv 7 6 [3, 2] =
      some ⟨[0, 0, 1, 1, 2, 0, 2], [3735928559, 1, 2, 3, 4, 1, 6]⟩ ∧
    classify 6 6 ⟨[0, 0, 1, 1, 2, 0, 2], [3735928559, 1, 2, 3, 4, 1, 6]⟩ false =
      some ⟨[4, 6], 2, 10⟩ ∧
    ∃ emitted n s,
      classify 6 6 ⟨[0, 0, 1, 1, 2, 0, 2], [3735928559, 1, 2, 3, 4, 1, 6]⟩ false =
        some ⟨emitted, n, s⟩ ∧
      classify 6 6 ⟨[0, 0, 1, 1, 2, 0, 2], [3735928559, 1, 2, 3, 4, 1, 6]⟩ true =
        some ⟨[], n, s⟩ ∧
      emitted.Sorted (· < ·) ∧ (∀ v ∈ emitted, 4 ≤ v ∧ v ≤ 6) ∧
      n = emitted.length ∧ s = emitted.sum :=
  ⟨by decide, by decide,
    C9_scan_invariants refEnv 7 6 6 [3, 2]
      ⟨[0, 0, 1, 1, 2, 0, 2], [3735928559, 1, 2, 3, 4, 1, 6]⟩ (by decide) (by decide)
      (by decide) (by decide)⟩

/-- C10. Final array contents: after the sieve over the primes `P` up to the integer
square root of `X`, for every index `i` with `1 ≤ i ≤ X`, `counts[i]` is the sum over
`p` in `P` of the exponent of `p` in `i` and `products[i]` is the product over `p` in
`P` of `p` to that exponent.  When every prime factor of `i` is at most the square
root, `counts[i]` is the number of prime factors of `i` counted with multiplicity and
`products[i] = i`; when `i` has a prime factor `q` above the square root, that factor
is missing from both: `counts[i]` is one less and `products[i] = i / q`. -/
theorem C10_final_arrays (env : Env) (fuel X : Nat) (primes : List Nat) (hX1 : 1 ≤ X)
    (hX : X < 2 ^ 32) (hP : IsPrimeList (Nat.sqrt X) primes) (hfuel : X < fuel) :
    ∃ mem, sieve env fuel X primes = some mem ∧
      ∀ i, 1 ≤ i → i ≤ X →
        mem.counts[i]? = some ((primes.map (fun p => i.factorization p)).sum) ∧
        mem.products[i]? = some ((primes.map (fun p => p ^ i.factorization p)).prod) ∧
        ((∀ q, q.Prime → q ∣ i → q ≤ Nat.sqrt X) →
          mem.counts[i]? = some (ArithmeticFunction.cardFactors i) ∧
          mem.products[i]? = some i) ∧
        (∀ q, q.Prime → q ∣ i → Nat.sqrt X < q →
          mem.counts[i]? = some (ArithmeticFunction.cardFactors i - 1) ∧
          mem.products[i]? = some (i / q)) := by
  have hX' : X < U32 := hX
  obtain ⟨mem, hm, hs, hc⟩ := sieve_primeList env fuel X primes hX1 hX' hfuel hP
  refine ⟨mem, hm, ?_⟩
  intro i hi1 hiX
  have hcnt := Mem.counts_getElem? mem X i hs hiX
  have hprd := Mem.products_getElem? mem X i hs hiX
  obtain ⟨h1, h2⟩ := hc i hi1 hiX
  obtain ⟨-, -, hsmooth, hlarge⟩ := primeList_math X i primes hP hi1 hiX
  rw [h1] at hcnt
  rw [h2] at hprd
  refine ⟨hcnt, hprd, ?_, ?_⟩
  · intro hsm
    obtain ⟨h3, h4⟩ := hsmooth hsm
    rw [hcnt, hprd, h3, h4]
    exact ⟨rfl, rfl⟩
  · intro q hq hqd hql
    obtain ⟨h3, h4⟩ := hlarge q hq hqd hql
    rw [hcnt, hprd]
    constructor
    · congr 1; omega
    · congr 1
      exact (Nat.div_eq_of_eq_mul_left hq.pos h4.symm).symm

/-- C10 for `X = 4` and the prime list `[2]`. -/
theorem C10_final_arrays_witness :
    IsPrimeList (Nat.sqrt 4) (primesUpTo (Nat.sqrt 4)) ∧
    ∃ mem, sieve refEnv 5 4 (primesUpTo (Nat.sqrt 4)) = some mem ∧
      ∀ i, 1 ≤ i → i ≤ 4 →
        mem.counts[i]? =
          some (((primesUpTo (Nat.sqrt 4)).map (fun p => i.factorization p)).sum) ∧
        mem.products[i]? =
          some (((primesUpTo (Nat.sqrt 4)).map (fun p => p ^ i.factorization p)).prod) ∧
        ((∀ q, q.Prime → q ∣ i → q ≤ Nat.sqrt 4) →
          mem.counts[i]? = some (ArithmeticFunction.cardFactors i) ∧
          mem.products[i]? = some i) ∧
        (∀ q, q.Prime → q ∣ i → Nat.sqrt 4 < q →
          mem.counts[i]? = some (ArithmeticFunction.cardFactors i - 1) ∧
          mem.products[i]? = some (i / q)) :=
  ⟨primesUpTo_isPrimeList (Nat.sqrt 4),
    C10_final_arrays refEnv 5 4 (primesUpTo (Nat.sqrt 4)) (by decide) (by decide)
      (primesUpTo_isPrimeList (Nat.sqrt 4)) (by decide)⟩

/-! ## The loops are the passes over their traces -/

theorem isqrtLoop_eq_steps (n : Nat) :
    ∀ fuel ai, isqrtLoop n fuel ai = (isqrtSteps n fuel ai).map Prod.snd := by
  intro fuel
  induction fuel with
  | zero => intro ai; rfl
  | succ fuel ih =>
    intro ai
    unfold isqrtLoop isqrtSteps
    split
    · rfl
    · split
      · split
        · rfl
        · split
          · rfl
          · rw [ih]; cases isqrtSteps n fuel ((ai + n / ai) % U64 / 2) <;> rfl
      · rw [ih]; cases isqrtSteps n fuel ((ai + n / ai) % U64 / 2) <;> rfl

theorem initProducts_eq_steps (x : Nat) :
    ∀ fuel i products, initProducts x fuel i products =
      match indexSteps x fuel i with
      | none => none
      | some l => writeOnes l products := by
  intro fuel
  induction fuel with
  | zero => intro i products; rfl
  | succ fuel ih =>
    intro i products
    unfold initProducts indexSteps
    by_cases hix : i = x
    · simp only [hix, if_true, writeOnes]
    · simp only [if_neg hix]
      rw [ih]
      cases indexSteps x fuel ((i + 1) % U32) with
      | none => simp
      | some l => simp [writeOnes]

theorem classifyLoop_eq_steps (x : Nat) (mem : Mem) (jt : Bool) :
    ∀ fuel i s, classifyLoop x mem jt fuel i s =
      match indexSteps x fuel i with
      | none => none
      | some l => Scan.scanAll mem jt l s := by
  intro fuel
  induction fuel with
  | zero => intro i s; rfl
  | succ fuel ih =>
    intro i s
    unfold classifyLoop indexSteps
    by_cases hix : i = x
    · simp only [hix, if_true, Scan.scanAll]
    · simp only [if_neg hix]
      cases hb : isSemiprimeIndex mem i with
      | none =>
        cases indexSteps x fuel ((i + 1) % U32) with
        | none => rfl
        | some l => simp [Scan.scanAll, hb]
      | some b =>
        simp only []
        rw [ih]
        cases indexSteps x fuel ((i + 1) % U32) with
        | none => rfl
        | some l => simp [Scan.scanAll, hb]

theorem multiplesLoop_eq_steps (x p pw : Nat) :
    ∀ fuel m mem, multiplesLoop x p pw fuel m mem =
      match multiplesSteps x p pw fuel m with
      | none => none
      | some l => mem.visitAll l := by
  intro fuel
  induction fuel with
  | zero => intro m mem; rfl
  | succ fuel ih =>
    intro m mem
    unfold multiplesLoop multiplesSteps
    by_cases hmx : m ≤ x
    · simp only [if_pos hmx]
      cases hv : mem.visit m p with
      | none =>
        cases multiplesSteps x p pw fuel ((m + pw) % U64) with
        | none => rfl
        | some l => simp [Mem.visitAll, hv]
      | some mem1 =>
        simp only []
        rw [ih]
        cases multiplesSteps x p pw fuel ((m + pw) % U64) with
        | none => rfl
        | some l => simp [Mem.visitAll, hv]
    · simp only [if_neg hmx, Mem.visitAll]

theorem visitAll_append (l r : List Visit) :
    ∀ mem : Mem, mem.visitAll (l ++ r) =
      match mem.visitAll l with
      | none => none
      | some mem1 => mem1.visitAll r := by
  induction l with
  | nil => intro mem; rfl
  | cons v l ih =>
    intro mem
    simp only [List.cons_append, Mem.visitAll]
    cases mem.visit v.index v.prime with
    | none => rfl
    | some mem1 => exact ih mem1

theorem powersLoop_eq_steps (x p : Nat) :
    ∀ fuel pw mem, powersLoop x p fuel pw mem =
      match powersSteps x p fuel pw with
      | none => none
      | some l => mem.visitAll l := by
  intro fuel
  induction fuel with
  | zero => intro pw mem; rfl
  | succ fuel ih =>
    intro pw mem
    unfold powersLoop powersSteps
    by_cases hpx : pw ≤ x
    · simp only [if_pos hpx]
      rw [multiplesLoop_eq_steps]
      cases multiplesSteps x p pw (fuel + 1) pw with
      | none => rfl
      | some l =>
        simp only []
        cases hr : powersSteps x p fuel ((pw * p) % U64) with
        | none =>
          simp only [Option.map_none']
          cases hm : mem.visitAll l with
          | none => rfl
          | some mem1 => simp only []; rw [ih, hr]
        | some r =>
          simp only [Option.map_some', visitAll_append]
          cases hm : mem.visitAll l with
          | none => rfl
          | some mem1 => simp only []; rw [ih, hr]
    · simp only [if_neg hpx, Mem.visitAll]

theorem primesLoop_eq_steps (x fuel : Nat) :
    ∀ primes mem, primesLoop x fuel primes mem =
      match primesSteps x fuel primes with
      | none => none
      | some l => mem.visitAll l := by
  intro primes
  induction primes with
  | nil => intro mem; rfl
  | cons p rest ih =>
    intro mem
    unfold primesLoop primesSteps
    rw [powersLoop_eq_steps]
    cases powersSteps x p fuel (p % U64) with
    | none => rfl
    | some l =>
      simp only []
      cases hr : primesSteps x fuel rest with
      | none =>
        simp only [Option.map_none']
        cases hm : mem.visitAll l with
        | none => rfl
        | some mem1 => simp only []; rw [ih, hr]
      | some r =>
        simp only [Option.map_some', visitAll_append]
        cases hm : mem.visitAll l with
        | none => rfl
        | some mem1 => simp only []; rw [ih, hr]

theorem sieve_eq_steps (env : Env) (fuel x : Nat) (primes : List Nat) :
    sieve env fuel x primes =
      match initialMem env fuel x, primesSteps x fuel primes with
      | some mem0, some l => mem0.visitAll l
      | _, _ => none := by
  unfold sieve initialMem
  cases initProducts x fuel 1 ((List.range (x + 1)).map (fun j => env.malloc j % U32)) with
  | none => rfl
  | some products =>
    simp only []
    rw [primesLoop_eq_steps]
    cases primesSteps x fuel primes <;> rfl

/-! ## The traces in closed form -/

theorem indexSteps_eq (x : Nat) (hx : x < U32) :
    ∀ fuel i, i ≤ x → x - i < fuel →
      indexSteps x fuel i = some (List.range' i (x + 1 - i)) := by
  intro fuel
  induction fuel with
  | zero => intro i _ hf; omega
  | succ fuel ih =>
    intro i hi hf
    unfold indexSteps
    by_cases hix : i = x
    · rw [if_pos hix, hix]
      have : x + 1 - x = 1 := by omega
      rw [this]; rfl
    · have hmod : (i + 1) % U32 = i + 1 := Nat.mod_eq_of_lt (by omega)
      rw [if_neg hix, hmod, ih (i + 1) (by omega) (by omega)]
      have : x + 1 - i = (x + 1 - (i + 1)) + 1 := by omega
      rw [this, List.range'_succ]; rfl

theorem isqrtSteps_from_above (n : Nat) (hn : n < U32) :
    ∀ (fuel a : Nat), Nat.sqrt n ≤ a → a ≤ n → 0 < a → a < fuel + Nat.sqrt n →
      ∃ l, isqrtSteps n fuel a = some (l, Nat.sqrt n) ∧
        ∀ b ∈ l, Nat.sqrt n < b ∧ b ≤ n := by
  have h64 : U32 < U64 := U32_lt_U64
  intro fuel
  induction fuel with
  | zero => intro a h1 _ _ h4; omega
  | succ fuel ih =>
    intro a h1 h2 h3 h4
    have hs : (a + 1) % U64 = a + 1 := Nat.mod_eq_of_lt (by omega)
    have hdiv : n / a ≤ n := Nat.div_le_self n a
    have hm : (a + n / a) % U64 = a + n / a := Nat.mod_eq_of_lt (by
      have : U32 + U32 < U64 := by decide
      omega)
    rcases Nat.eq_or_lt_of_le h1 with heq | hlt
    · have hex := (exit_iff n a h3).mpr heq.symm
      refine ⟨[], ?_, by simp⟩
      unfold isqrtSteps
      rw [if_neg (by omega), if_pos hex.1, hs, if_neg (by omega), if_pos hex.2, heq]
    · have hlt2 : n < a * a := Nat.sqrt_lt.mp hlt
      have hnle : ¬ a ≤ n / a := by
        rw [Nat.le_div_iff_mul_le h3]; omega
      have hstep := step_lt n a hlt2
      have hge := sqrt_le_step n a h3
      have hpos : 0 < Nat.sqrt n := Nat.sqrt_pos.mpr (by omega)
      obtain ⟨l, hl, hb⟩ := ih _ hge (by omega) (by omega) (by omega)
      refine ⟨a :: l, ?_, ?_⟩
      · unfold isqrtSteps
        rw [if_neg (by omega), if_neg hnle, hm, hl]; rfl
      · intro b hbm
        rcases List.mem_cons.mp hbm with rfl | hin
        · exact ⟨hlt, h2⟩
        · exact hb b hin

/-- The values of `ai` in the loop of `isqrt` from a seed between `1` and `n`. -/
theorem isqrtSteps_spec (n : Nat) (hn : n < U32) (fuel s : Nat) (hs1 : 1 ≤ s) (hs2 : s ≤ n)
    (hfuel : n + 2 ≤ fuel) :
    ∃ l, isqrtSteps n fuel s = some (l, Nat.sqrt n) ∧
      ∀ b ∈ l, 1 ≤ b ∧ b ≤ n ∧ b ≠ Nat.sqrt n := by
  have h64 : U32 < U64 := U32_lt_U64
  rcases Nat.lt_or_ge s (Nat.sqrt n) with hlt | hge
  · obtain ⟨fuel, rfl⟩ : ∃ f, fuel = f + 1 := ⟨fuel - 1, by omega⟩
    have hsq : (s + 1) * (s + 1) ≤ n := Nat.le_sqrt.mp hlt
    have hss : s * s ≤ n := by nlinarith
    have hs : (s + 1) % U64 = s + 1 := Nat.mod_eq_of_lt (by omega)
    have hdiv : n / s ≤ n := Nat.div_le_self n s
    have hm : (s + n / s) % U64 = s + n / s := Nat.mod_eq_of_lt (by
      have : U32 + U32 < U64 := by decide
      omega)
    have h1 : s ≤ n / s := (Nat.le_div_iff_mul_le hs1).mpr hss
    have h2 : ¬ (s + 1 > n / (s + 1)) := by
      rw [gt_iff_lt, Nat.div_lt_iff_lt_mul (show 0 < s + 1 by omega)]; omega
    have hge := sqrt_le_step n s hs1
    have hpos : 0 < Nat.sqrt n := by omega
    obtain ⟨l, hl, hb⟩ := isqrtSteps_from_above n hn fuel _ hge (by omega) (by omega) (by omega)
    refine ⟨s :: l, ?_, ?_⟩
    · unfold isqrtSteps
      rw [if_neg (by omega), if_pos h1, hs, if_neg (by omega), if_neg h2, hm, hl]; rfl
    · intro b hbm
      rcases List.mem_cons.mp hbm with rfl | hin
      · exact ⟨hs1, hs2, by omega⟩
      · have := hb b hin
        exact ⟨by omega, this.2, by omega⟩
  · obtain ⟨l, hl, hb⟩ := isqrtSteps_from_above n hn fuel s hge hs2 hs1 (by omega)
    refine ⟨l, hl, ?_⟩
    intro b hin
    have := hb b hin
    exact ⟨by omega, this.2, by omega⟩

/-- The loop of `isqrt` leaves only through the test of line 37. -/
theorem isqrtLoop_exit (n : Nat) :
    ∀ fuel ai a, isqrtLoop n fuel ai = some a →
      a ≠ 0 ∧ a ≤ n / a ∧ (a + 1) % U64 ≠ 0 ∧ (a + 1) % U64 > n / ((a + 1) % U64) := by
  intro fuel
  induction fuel with
  | zero => intro ai a h; cases h
  | succ fuel ih =>
    intro ai a h
    unfold isqrtLoop at h
    split at h
    · cases h
    · split at h
      · split at h
        · cases h
        · split at h
          · injection h with h
            subst h
            exact ⟨by assumption, by assumption, by assumption, by assumption⟩
          · exact ih _ a h
      · exact ih _ a h

/-! ## The trace of the sieve -/

theorem visitsOf_cons (j : Nat) (v : Visit) (l : List Visit) :
    visitsOf j (v :: l) = if v.index = j then v :: visitsOf j l else visitsOf j l := by
  unfold visitsOf
  rw [List.filter_cons]
  simp only [beq_iff_eq]

theorem visitsOf_append (j : Nat) (l r : List Visit) :
    visitsOf j (l ++ r) = visitsOf j l ++ visitsOf j r := by
  unfold visitsOf
  exact List.filter_append l r

theorem multiplesSteps_spec (x p pw : Nat) (hx : x < U32) (hpw : 0 < pw) (hpwx : pw ≤ x) :
    ∀ fuel m, pw ∣ m → x + 1 - m < fuel →
      ∃ l, multiplesSteps x p pw fuel m = some l ∧
        (∀ v ∈ l, v.prime = p ∧ v.primepower = pw ∧ m ≤ v.index ∧ v.index ≤ x ∧
          pw ∣ v.index) ∧
        (∀ j, visitsOf j l =
          if m ≤ j ∧ j ≤ x ∧ pw ∣ j then [{ index := j, primepower := pw, prime := p }]
          else []) := by
  have h64 : U32 + U32 < U64 := by decide
  intro fuel
  induction fuel with
  | zero => intro m _ hf; omega
  | succ fuel ih =>
    intro m hdvd hf
    unfold multiplesSteps
    by_cases hmx : m ≤ x
    · have hmod : (m + pw) % U64 = m + pw := Nat.mod_eq_of_lt (by omega)
      obtain ⟨l, hl, hmem, hvis⟩ := ih (m + pw) (Dvd.dvd.add hdvd (dvd_refl pw)) (by omega)
      refine ⟨{ index := m, primepower := pw, prime := p } :: l, ?_, ?_, ?_⟩
      · rw [if_pos hmx, hmod, hl]; rfl
      · intro v hv
        rcases List.mem_cons.mp hv with rfl | hin
        · exact ⟨rfl, rfl, le_refl _, hmx, hdvd⟩
        · obtain ⟨h1, h2, h3, h4, h5⟩ := hmem v hin
          exact ⟨h1, h2, by omega, h4, h5⟩
      · intro j
        rw [visitsOf_cons, hvis j]
        by_cases hjm : m = j
        · subst hjm
          rw [if_pos rfl, if_neg (by omega), if_pos ⟨le_refl _, hmx, hdvd⟩]
        · rw [if_neg hjm]
          by_cases hin : m ≤ j ∧ j ≤ x ∧ pw ∣ j
          · have : m + pw ≤ j :=
              add_le_of_dvd_of_lt pw m j hdvd hin.2.2 (by omega)
            rw [if_pos ⟨this, hin.2⟩, if_pos hin]
          · rw [if_neg hin, if_neg (fun h => hin ⟨by omega, h.2⟩)]
    · refine ⟨[], by rw [if_neg hmx], by simp, ?_⟩
      intro j
      rw [if_neg (by omega)]; rfl

theorem powersSteps_spec (x p : Nat) (hx : x < U32) (hp2 : 2 ≤ p) (hp32 : p < U32) :
    ∀ fuel pw, 0 < pw → x + 1 - pw < fuel →
      ∃ l, powersSteps x p fuel pw = some l ∧
        (∀ v ∈ l, v.prime = p ∧ pw ≤ v.primepower ∧ v.primepower ≤ v.index ∧
          v.index ≤ x ∧ v.primepower ∣ v.index) ∧
        (∀ j, 1 ≤ j → j ≤ x →
          (visitsOf j l).map Visit.prime = List.replicate (levels x p j fuel pw) p) := by
  have h64 : U32 * U32 = U64 := by decide
  intro fuel
  induction fuel with
  | zero => intro pw _ hf; omega
  | succ fuel ih =>
    intro pw hpw hf
    unfold powersSteps levels
    by_cases hpx : pw ≤ x
    · obtain ⟨lm, hm, hmem1, hvis1⟩ :=
        multiplesSteps_spec x p pw hx hpw hpx (fuel + 1) pw (dvd_refl pw) hf
      have hlt : pw * p < U64 := by
        calc pw * p < U32 * U32 := Nat.mul_lt_mul'' (by omega) hp32
          _ = U64 := h64
      have hmod : (pw * p) % U64 = pw * p := Nat.mod_eq_of_lt hlt
      have hgrow : pw + 1 ≤ pw * p := by nlinarith
      obtain ⟨r, hr, hmem2, hvis2⟩ := ih (pw * p) (by positivity) (by omega)
      refine ⟨lm ++ r, ?_, ?_, ?_⟩
      · rw [if_pos hpx, hm, hmod, hr]; rfl
      · intro v hv
        rcases List.mem_append.mp hv with hin | hin
        · obtain ⟨h1, h2, h3, h4, h5⟩ := hmem1 v hin
          exact ⟨h1, by omega, by omega, h4, by rw [h2]; exact h5⟩
        · obtain ⟨h1, h2, h3, h4, h5⟩ := hmem2 v hin
          exact ⟨h1, by omega, h3, h4, h5⟩
      · intro j hj1 hjx
        rw [if_pos hpx, visitsOf_append, List.map_append, hvis2 j hj1 hjx, hvis1 j,
          List.replicate_add]
        congr 1
        by_cases hv : j % pw = 0
        · have hd : pw ∣ j := Nat.dvd_of_mod_eq_zero hv
          rw [if_pos ⟨Nat.le_of_dvd (by omega) hd, hjx, hd⟩, if_pos hv]; rfl
        · rw [if_neg (fun h => hv (Nat.mod_eq_zero_of_dvd h.2.2)), if_neg hv]; rfl
    · refine ⟨[], by rw [if_neg hpx], by simp, ?_⟩
      intro j _ _
      rw [if_neg hpx]; rfl

/-- The trace of the sieve for a list of entries in `[2, 2^32)`: where the runs of
lines 77-79 are, and how many of them touch the index `j`, with what factors. -/
theorem primesSteps_spec (x fuel : Nat) (hx : x < U32) (hf : x < fuel) :
    ∀ primes : List Nat, (∀ p ∈ primes, 2 ≤ p ∧ p < U32) →
      ∃ T, primesSteps x fuel primes = some T ∧
        (∀ v ∈ T, v.prime ∈ primes ∧ v.prime ≤ v.primepower ∧ v.primepower ≤ v.index ∧
          v.index ≤ x ∧ v.primepower ∣ v.index) ∧
        (∀ j, 1 ≤ j → j ≤ x →
          (visitsOf j T).length = visits x fuel primes j ∧
          ((visitsOf j T).map Visit.prime).prod = visitProduct x fuel primes j) := by
  have h64 : U32 < U64 := U32_lt_U64
  intro primes
  induction primes with
  | nil =>
    intro _
    exact ⟨[], rfl, by simp, fun j _ _ => ⟨rfl, rfl⟩⟩
  | cons p rest ih =>
    intro hP
    have hp := hP p (List.mem_cons_self p rest)
    have hmod : p % U64 = p := Nat.mod_eq_of_lt (by omega)
    obtain ⟨l, hl, hmem1, hvis1⟩ :=
      powersSteps_spec x p hx hp.1 hp.2 fuel p (by omega) (by omega)
    obtain ⟨r, hr, hmem2, hvis2⟩ := ih (fun q hq => hP q (List.mem_cons_of_mem p hq))
    refine ⟨l ++ r, ?_, ?_, ?_⟩
    · unfold primesSteps
      rw [hmod, hl, hr]; rfl
    · intro v hv
      rcases List.mem_append.mp hv with hin | hin
      · obtain ⟨h1, h2, h3, h4, h5⟩ := hmem1 v hin
        exact ⟨by rw [h1]; exact List.mem_cons_self p rest, by omega, h3, h4, h5⟩
      · obtain ⟨h1, h2⟩ := hmem2 v hin
        exact ⟨List.mem_cons_of_mem p h1, h2⟩
    · intro j hj1 hjx
      obtain ⟨h1, h2⟩ := hvis2 j hj1 hjx
      have h3 := hvis1 j hj1 hjx
      constructor
      · have : (visitsOf j l).length = levels x p j fuel p := by
          have := congrArg List.length h3
          simpa using this
        rw [visitsOf_append, List.length_append, this, h1]
        simp only [visits, List.map_cons, List.sum_cons]
      · rw [visitsOf_append, List.map_append, List.prod_append, h3, List.prod_replicate, h2]
        simp only [visitProduct, List.map_cons, List.prod_cons]

/-- The arrays after the runs of a list, whatever the list. -/
theorem visitAll_spec (x : Nat) :
    ∀ (T : List Visit) (mem : Mem), mem.Sized x → (∀ v ∈ T, v.index ≤ x) →
      ∃ mem1, mem.visitAll T = some mem1 ∧ mem1.Sized x ∧
        (∀ j N, mem.cnt j = N % U8 → mem1.cnt j = (N + (visitsOf j T).length) % U8) ∧
        (∀ j Q, mem.prd j = Q % U32 →
          mem1.prd j = (Q * ((visitsOf j T).map Visit.prime).prod) % U32) := by
  intro T
  induction T with
  | nil =>
    intro mem hs _
    refine ⟨mem, rfl, hs, ?_, ?_⟩
    · intro j N hN; simpa [visitsOf] using hN
    · intro j Q hQ; simpa [visitsOf] using hQ
  | cons v T ih =>
    intro mem hs hT
    obtain ⟨mem1, hv, hs1, hc1, hp1⟩ :=
      visit_spec mem x v.index v.prime hs (hT v (List.mem_cons_self v T))
    obtain ⟨mem2, h2, hs2, hc2, hp2⟩ :=
      ih mem1 hs1 (fun w hw => hT w (List.mem_cons_of_mem v hw))
    refine ⟨mem2, ?_, hs2, ?_, ?_⟩
    · unfold Mem.visitAll
      rw [hv]; exact h2
    · intro j N hN
      rw [visitsOf_cons]
      by_cases hj : v.index = j
      · have h1 : mem1.cnt j = (N + 1) % U8 := by
          rw [hc1 j, if_pos hj.symm, hj, hN, Nat.mod_add_mod]
        rw [if_pos hj, hc2 j _ h1, List.length_cons]
        congr 1; omega
      · have h1 : mem1.cnt j = N % U8 := by
          rw [hc1 j, if_neg (fun h => hj h.symm), hN]
        rw [if_neg hj, hc2 j _ h1]
    · intro j Q hQ
      rw [visitsOf_cons]
      by_cases hj : v.index = j
      · have h1 : mem1.prd j = (Q * v.prime) % U32 := by
          rw [hp1 j, if_pos hj.symm, hj, hQ, Nat.mod_mul_mod]
        rw [if_pos hj, hp2 j _ h1, List.map_cons, List.prod_cons, Nat.mul_assoc]
      · have h1 : mem1.prd j = Q % U32 := by
          rw [hp1 j, if_neg (fun h => hj h.symm), hQ]
        rw [if_neg hj, hp2 j _ h1]

/-- The arrays before the sieve loops. -/
theorem initialMem_spec (env : Env) (fuel x : Nat) (hx1 : 1 ≤ x) (hx : x < U32)
    (hf : x ≤ fuel) :
    ∃ mem0, initialMem env fuel x = some mem0 ∧ mem0.Sized x ∧
      (∀ j, mem0.cnt j = 0) ∧
      (∀ j, 1 ≤ j → j ≤ x → mem0.prd j = 1) ∧
      mem0.prd 0 = env.malloc 0 % U32 := by
  obtain ⟨l1, h1, hl1, hc⟩ := initProducts_spec x hx fuel 1
    ((List.range (x + 1)).map (fun j => env.malloc j % U32)) (by simp) hx1 (by omega)
  refine ⟨{ counts := List.replicate (x + 1) 0, products := l1 }, ?_, ⟨by simp, hl1⟩,
    ?_, ?_, ?_⟩
  · unfold initialMem
    rw [h1]
  · intro j
    simp only [Mem.cnt, List.getD_eq_getElem?_getD, List.getElem?_replicate]
    split <;> rfl
  · intro j hj1 hjx
    simp only [Mem.prd]
    rw [hc j, if_pos ⟨hj1, hjx⟩]
  · simp only [Mem.prd]
    rw [hc 0, if_neg (by omega)]
    simp [List.getD_eq_getElem?_getD]

/-! ## Lists of distinct primes -/

theorem prod_primes_dvd (i : Nat) (primes : List Nat) (hnd : primes.Nodup) (hi : i ≠ 0) :
    (primes.map (fun p => p ^ i.factorization p)).prod ∣ i := by
  rw [← List.prod_toFinset _ hnd]
  have h1 : ∏ p in primes.toFinset, p ^ i.factorization p =
      ∏ p in primes.toFinset ∩ i.primeFactors, p ^ i.factorization p := by
    symm
    apply Finset.prod_subset Finset.inter_subset_left
    intro p _ hnot
    have hnp : p ∉ i.primeFactors := fun h => hnot (Finset.mem_inter.mpr ⟨by assumption, h⟩)
    have : i.factorization p = 0 :=
      Finsupp.not_mem_support_iff.mp (by rwa [Nat.support_factorization])
    rw [this, pow_zero]
  have h2 := Finset.prod_dvd_prod_of_subset (primes.toFinset ∩ i.primeFactors) i.primeFactors
    (fun p => p ^ i.factorization p) Finset.inter_subset_right
  rw [self_eq_prod i hi] at h2
  rw [h1]
  exact h2

theorem two_pow_sum_le_list (f : Nat → Nat) :
    ∀ primes : List Nat, (∀ p ∈ primes, 2 ≤ p) →
      2 ^ (primes.map f).sum ≤ (primes.map (fun p => p ^ f p)).prod := by
  intro primes
  induction primes with
  | nil => intro _; simp
  | cons p rest ih =>
    intro hP
    have h1 := ih (fun q hq => hP q (List.mem_cons_of_mem p hq))
    have h2 : 2 ^ f p ≤ p ^ f p := Nat.pow_le_pow_left (hP p (List.mem_cons_self p rest)) _
    simp only [List.map_cons, List.sum_cons, List.prod_cons, pow_add]
    exact Nat.mul_le_mul h2 h1

/-- The number of visits to an index is at most its binary logarithm. -/
theorem visits_le_log (x fuel i : Nat) (primes : List Nat) (hnd : primes.Nodup)
    (hP : ∀ p ∈ primes, p.Prime) (hi1 : 1 ≤ i) (hix : i ≤ x) (hf : x < fuel) :
    visits x fuel primes i ≤ Nat.log 2 i ∧ visitProduct x fuel primes i ∣ i := by
  have hi0 : i ≠ 0 := by omega
  rw [visits_eq x fuel i primes hP hi1 hix hf, visitProduct_eq x fuel i primes hP hi1 hix hf]
  have hd := prod_primes_dvd i primes hnd hi0
  refine ⟨?_, hd⟩
  rw [← Nat.pow_le_iff_le_log (by norm_num) hi0]
  exact le_trans (two_pow_sum_le_list _ primes (fun p hp => (hP p hp).two_le))
    (Nat.le_of_dvd (by omega) hd)

theorem log_two_le (i : Nat) (hi : i < U32) : Nat.log 2 i ≤ 31 := by
  rcases Nat.eq_zero_or_pos i with h0 | hpos
  · subst h0; simp
  · have : Nat.log 2 i < 32 := Nat.log_lt_of_lt_pow (by omega) hi
    omega

theorem prefix_prod_dvd (l1 l2 : List Nat) (h : l1 <+: l2) : l1.prod ∣ l2.prod := by
  obtain ⟨r, rfl⟩ := h
  rw [List.prod_append]
  exact Dvd.intro _ rfl

theorem visitsOf_initial_part (j : Nat) (pre T : List Visit) (h : pre <+: T) :
    (visitsOf j pre).map Visit.prime <+: (visitsOf j T).map Visit.prime :=
  List.IsPrefix.map _ (List.IsPrefix.filter _ h)

theorem mem_of_initial_part (pre T : List Visit) (h : pre <+: T) (v : Visit) (hv : v ∈ pre) :
    v ∈ T := by
  obtain ⟨r, rfl⟩ := h
  exact List.mem_append_left r hv

theorem visitsOf_eq_nil (j : Nat) (T : List Visit) (h : ∀ v ∈ T, v.index ≠ j) :
    visitsOf j T = [] := by
  unfold visitsOf
  rw [List.filter_eq_nil_iff]
  intro v hv
  simp only [beq_iff_eq]
  exact h v hv

/-- The sieve as the pass over its trace, for a list of entries in `[2, 2^32)`. -/
theorem sieve_trace (env : Env) (fuel x : Nat) (primes : List Nat) (hx1 : 1 ≤ x)
    (hx : x < U32) (hf : x < fuel) (hP : ∀ p ∈ primes, 2 ≤ p ∧ p < U32) :
    ∃ mem0 T mem, initialMem env fuel x = some mem0 ∧ primesSteps x fuel primes = some T ∧
      sieve env fuel x primes = some mem ∧ mem0.visitAll T = some mem ∧
      mem0.Sized x ∧ mem.Sized x ∧
      (∀ v ∈ T, v.prime ∈ primes ∧ 2 ≤ v.prime ∧ v.prime ≤ v.primepower ∧
        v.primepower ≤ v.index ∧ v.index ≤ x ∧ v.primepower ∣ v.index) ∧
      (∀ j, 1 ≤ j → j ≤ x →
        (visitsOf j T).length = visits x fuel primes j ∧
        ((visitsOf j T).map Visit.prime).prod = visitProduct x fuel primes j) ∧
      (∀ j, mem.cnt j = (visitsOf j T).length % U8) ∧
      (∀ j, 1 ≤ j → j ≤ x →
        mem.prd j = ((visitsOf j T).map Visit.prime).prod % U32) ∧
      mem.prd 0 = env.malloc 0 % U32 := by
  obtain ⟨mem0, h0, hs0, hc0, hp0, hz0⟩ := initialMem_spec env fuel x hx1 hx (by omega)
  obtain ⟨T, hT, hmem, hvis⟩ := primesSteps_spec x fuel hx hf primes hP
  obtain ⟨mem, hm, hs, hc, hp⟩ := visitAll_spec x T mem0 hs0 (fun v hv => (hmem v hv).2.2.2.1)
  have hev : ∀ v ∈ T, v.prime ∈ primes ∧ 2 ≤ v.prime ∧ v.prime ≤ v.primepower ∧
      v.primepower ≤ v.index ∧ v.index ≤ x ∧ v.primepower ∣ v.index := by
    intro v hv
    obtain ⟨h1, h2, h3, h4, h5⟩ := hmem v hv
    exact ⟨h1, (hP _ h1).1, h2, h3, h4, h5⟩
  refine ⟨mem0, T, mem, h0, hT, ?_, hm, hs0, hs, hev, hvis, ?_, ?_, ?_⟩
  · rw [sieve_eq_steps, h0, hT]
    exact hm
  · intro j
    have := hc j 0 (by rw [hc0 j]; rfl)
    simpa using this
  · intro j hj1 hjx
    have := hp j 1 (by rw [hp0 j hj1 hjx]; rfl)
    simpa using this
  · have h00 : visitsOf 0 T = [] := visitsOf_eq_nil 0 T (fun v hv => by
      have := hev v hv
      omega)
    have hlt : env.malloc 0 % U32 < U32 := Nat.mod_lt _ (by decide)
    have := hp 0 (env.malloc 0 % U32) (by rw [hz0, Nat.mod_mod])
    rw [h00] at this
    simpa [Nat.mod_mod] using this

/-! ## Sums over a list -/

theorem filter_length_eq_sum (l : List Nat) (P : Nat → Prop) [DecidablePred P] :
    (l.filter (fun p => decide (P p))).length = (l.map (fun p => if P p then 1 else 0)).sum := by
  induction l with
  | nil => rfl
  | cons a t ih =>
    rw [List.filter_cons]
    by_cases h : P a
    · simp only [h, decide_True, if_true, List.length_cons, List.map_cons, List.sum_cons]
      omega
    · simp only [h, decide_False, List.map_cons, List.sum_cons, if_false]
      simpa using ih

theorem sum_le_sum_of_le (f g : Nat → Nat) :
    ∀ l : List Nat, (∀ p ∈ l, g p ≤ f p) →
      (l.map g).sum ≤ (l.map f).sum ∧
      ((l.map f).sum = (l.map g).sum ↔ ∀ p ∈ l, f p = g p) := by
  intro l
  induction l with
  | nil => intro _; simp
  | cons a t ih =>
    intro h
    have ha := h a (List.mem_cons_self a t)
    obtain ⟨h1, h2⟩ := ih (fun p hp => h p (List.mem_cons_of_mem a hp))
    simp only [List.map_cons, List.sum_cons, List.mem_cons, forall_eq_or_imp]
    refine ⟨by omega, ?_⟩
    constructor
    · intro he
      have hsum : (t.map f).sum = (t.map g).sum := by omega
      exact ⟨by omega, h2.mp hsum⟩
    · rintro ⟨he, ht⟩
      rw [he, h2.mpr ht]

/-! ## The claims on the behaviour of the sieve -/

theorem cardFactors_mul_primes (p q : Nat) (hp : p.Prime) (hq : q.Prime) :
    ArithmeticFunction.cardFactors (p * q) = 2 := by
  rw [ArithmeticFunction.cardFactors_mul hp.ne_zero hq.ne_zero,
    ArithmeticFunction.cardFactors_apply_prime hp, ArithmeticFunction.cardFactors_apply_prime hq]

/-- C11, as stated, fails: for `X = 4` the prime list is `[2]`, the one prime of the
list that divides 4 is 2, yet `counts[4]` is 2 after the sieve, since index 4 is
visited at the level 2 and at the level 4. -/
theorem C11_counterexample :
    IsPrimeList (Nat.sqrt 4) [2] ∧
    ∃ mem, sieve refEnv 5 4 [2] = some mem ∧
      mem.counts[4]? = some 2 ∧
      ([2].filter (fun p => decide (p ∣ 4))).length = 1 := by
  refine ⟨?_, ⟨[0, 0, 1, 0, 2], [3735928559, 1, 2, 1, 4]⟩, by decide, by decide, by decide⟩
  have h := primesUpTo_isPrimeList 2
  rw [primesUpTo_2] at h
  rw [sqrt_four]
  exact h

/-- C11, amended. After the sieve over the primes up to the integer square root of
`X`, `counts[0]` is 0 and, for every index `i` with `1 ≤ i ≤ X`, `counts[i]` is the sum
over the primes `p` of the list of the exponent of `p` in `i`: the count is weighted by
multiplicity, every prime contributing once for each of its powers that divides `i`.
It is at least the number of primes of the list that divide `i`, and equal to it
exactly when no square of a prime of the list divides `i`. -/
theorem C11_counts_with_multiplicity (env : Env) (fuel X : Nat) (primes : List Nat)
    (hX1 : 1 ≤ X) (hX : X < 2 ^ 32) (hP : IsPrimeList (Nat.sqrt X) primes)
    (hfuel : X < fuel) :
    ∃ mem, sieve env fuel X primes = some mem ∧
      mem.counts[0]? = some 0 ∧
      ∀ i, 1 ≤ i → i ≤ X → ∃ c, mem.counts[i]? = some c ∧
        c = (primes.map (fun p => i.factorization p)).sum ∧
        (primes.filter (fun p => decide (p ∣ i))).length ≤ c ∧
        (c = (primes.filter (fun p => decide (p ∣ i))).length ↔
          ∀ p ∈ primes, ¬ p * p ∣ i) := by
  have hX' : X < U32 := hX
  obtain ⟨hprime, hrange⟩ := primeList_entries X primes hX' hP
  obtain ⟨mem0, T, mem, -, -, hm, -, -, hs, hev, -, hc, -, -⟩ :=
    sieve_trace env fuel X primes hX1 hX' hfuel hrange
  obtain ⟨mem', hm', -, hc'⟩ := sieve_primeList env fuel X primes hX1 hX' hfuel hP
  rw [hm] at hm'
  injection hm' with hm'
  subst hm'
  refine ⟨mem, hm, ?_, ?_⟩
  · rw [Mem.counts_getElem? mem X 0 hs (by omega), hc 0,
      visitsOf_eq_nil 0 T (fun v hv => by have := hev v hv; omega)]
    rfl
  · intro i hi1 hiX
    have hi0 : i ≠ 0 := by omega
    refine ⟨mem.cnt i, Mem.counts_getElem? mem X i hs hiX, (hc' i hi1 hiX).1, ?_⟩
    rw [(hc' i hi1 hiX).1, filter_length_eq_sum primes (fun p => p ∣ i)]
    have hle : ∀ p ∈ primes, (if p ∣ i then 1 else 0) ≤ i.factorization p := by
      intro p hp
      by_cases hd : p ∣ i
      · rw [if_pos hd]
        exact (hprime p hp).factorization_pos_of_dvd hi0 hd
      · rw [if_neg hd]; omega
    obtain ⟨h1, h2⟩ := sum_le_sum_of_le (fun p => i.factorization p)
      (fun p => if p ∣ i then 1 else 0) primes hle
    refine ⟨h1, ?_⟩
    rw [h2]
    constructor
    · intro h p hp hsq
      have hpp := hprime p hp
      have h2le : 2 ≤ i.factorization p :=
        (hpp.pow_dvd_iff_le_factorization hi0).mp (by rw [pow_two]; exact hsq)
      have h3 : i.factorization p = if p ∣ i then 1 else 0 := h p hp
      split at h3 <;> omega
    · intro h p hp
      have hpp := hprime p hp
      have hlt : ¬ 2 ≤ i.factorization p := fun h2le =>
        h p hp (by
          have := (hpp.pow_dvd_iff_le_factorization hi0).mpr h2le
          rwa [pow_two] at this)
      show i.factorization p = if p ∣ i then 1 else 0
      by_cases hd : p ∣ i
      · have := hpp.factorization_pos_of_dvd hi0 hd
        rw [if_pos hd]; omega
      · rw [if_neg hd]
        exact Nat.factorization_eq_zero_of_not_dvd hd

/-- C11, amended, for `X = 4` and the prime list `[2]`. -/
theorem C11_counts_with_multiplicity_witness :
    ∃ mem, sieve refEnv 5 4 (primesUpTo (Nat.sqrt 4)) = some mem ∧
      mem.counts[0]? = some 0 ∧
      ∀ i, 1 ≤ i → i ≤ 4 → ∃ c, mem.counts[i]? = some c ∧
        c = ((primesUpTo (Nat.sqrt 4)).map (fun p => i.factorization p)).sum ∧
        ((primesUpTo (Nat.sqrt 4)).filter (fun p => decide (p ∣ i))).length ≤ c ∧
        (c = ((primesUpTo (Nat.sqrt 4)).filter (fun p => decide (p ∣ i))).length ↔
          ∀ p ∈ primesUpTo (Nat.sqrt 4), ¬ p * p ∣ i) :=
  C11_counts_with_multiplicity refEnv 5 4 (primesUpTo (Nat.sqrt 4)) (by decide) (by decide)
    (primesUpTo_isPrimeList (Nat.sqrt 4)) (by decide)

/-- C12. Large prime factor case: for `4 ≤ X < 2^32` and `i = p * q ≤ X` with `p`, `q`
prime and `q` above the integer square root of `X` (the value that `isqrt` returns),
which is at least `p`: after the sieve `counts[i] == 1` and `products[i] == p`, which is
not `i`, so the second branch of the test of line 85 holds and `i` is printed. -/
theorem C12_large_prime_factor (env : Env) (fuel X p q : Nat) (hX4 : 4 ≤ X)
    (hX : X < 2 ^ 32) (hgood : env.Good X) (hfuel : X + 2 ≤ fuel) (hp : p.Prime)
    (hq : q.Prime) (hpq : p * q ≤ X) (hple : p ≤ Nat.sqrt X) (hqgt : Nat.sqrt X < q) :
    ∃ mem emitted n s,
      isqrt (env.sqrt X) fuel X = some (Nat.sqrt X) ∧
      sieve env fuel X (env.Mairsonsprimesieve (Nat.sqrt X)) = some mem ∧
      mem.counts[p * q]? = some 1 ∧ mem.products[p * q]? = some p ∧
      p ≠ p * q ∧ p < p * q ∧
      isSemiprimeIndex mem (p * q) = some true ∧
      main env fuel (some (X : Int)) none = some (Outcome.found emitted n s X) ∧
      p * q ∈ emitted := by
  have hX' : X < U32 := hX
  have hp2 := hp.two_le
  have hq2 := hq.two_le
  have hi1 : 1 ≤ p * q := Nat.mul_pos hp.pos hq.pos
  have hlt : p < p * q := by nlinarith
  obtain ⟨mem, hm, hs, hc⟩ :=
    sieve_primeList env fuel X _ (by omega) hX' (by omega) hgood.2
  obtain ⟨h1, h2⟩ := hc (p * q) hi1 hpq
  obtain ⟨-, -, -, hlarge⟩ := primeList_math X (p * q) _ hgood.2 hi1 hpq
  obtain ⟨h3, h4⟩ := hlarge q hq (Dvd.intro_left p rfl) hqgt
  rw [← h1, cardFactors_mul_primes p q hp hq] at h3
  rw [← h2] at h4
  have hc1 : mem.cnt (p * q) = 1 := by omega
  have hp1 : mem.prd (p * q) = p := Nat.eq_of_mul_eq_mul_right hq.pos h4
  have hcnt := Mem.counts_getElem? mem X (p * q) hs hpq
  have hprd := Mem.products_getElem? mem X (p * q) hs hpq
  rw [hc1] at hcnt
  rw [hp1] at hprd
  have htest : isSemiprimeIndex mem (p * q) = some true := by
    unfold isSemiprimeIndex
    rw [hcnt, hprd]
    simp only [Option.some.injEq]
    exact (isSemiprimeTest_eq_true 1 p (p * q)).mpr (Or.inr ⟨rfl, hlt⟩)
  refine ⟨mem, semiprimesUpTo X, (semiprimesUpTo X).length, (semiprimesUpTo X).sum,
    isqrt_eq_sqrt X hX' fuel _ (fun _ => hgood.1) hfuel, hm, hcnt, hprd, by omega, hlt,
    htest, main_spec env fuel X none hX4 hX' hgood hfuel, ?_⟩
  rw [mem_semiprimesUpTo X _ hX4]
  exact ⟨by nlinarith, hpq, cardFactors_mul_primes p q hp hq⟩

/-- C12 for `X = 10`, `p = 2`, `q = 5`. -/
theorem C12_large_prime_factor_witness :
    ∃ mem emitted n s,
      isqrt (refEnv.sqrt 10) 12 10 = some (Nat.sqrt 10) ∧
      sieve refEnv 12 10 (refEnv.Mairsonsprimesieve (Nat.sqrt 10)) = some mem ∧
      mem.counts[2 * 5]? = some 1 ∧ mem.products[2 * 5]? = some 2 ∧
      2 ≠ 2 * 5 ∧ 2 < 2 * 5 ∧
      isSemiprimeIndex mem (2 * 5) = some true ∧
      main refEnv 12 (some ((10 : Nat) : Int)) none = some (Outcome.found emitted n s 10) ∧
      2 * 5 ∈ emitted :=
  C12_large_prime_factor refEnv 12 10 2 5 (by decide) (by decide) (refEnv_good 10 (by decide))
    (by decide) (by norm_num) (by norm_num) (by decide)
    (Nat.le_sqrt.mpr (by decide)) (Nat.sqrt_lt.mpr (by decide))

/-- C13. Square of a prime: for `4 ≤ X < 2^32` and a prime `p` with `p * p ≤ X`, `p` is
at most the integer square root of `X` (the value that `isqrt` returns), so `p` is in
the prime list; after the sieve `counts[p * p] == 2` and `products[p * p] == p * p`, so
the first branch of the test of line 85 holds and `p * p` is printed. -/
theorem C13_square_of_prime (env : Env) (fuel X p : Nat) (hX4 : 4 ≤ X) (hX : X < 2 ^ 32)
    (hgood : env.Good X) (hfuel : X + 2 ≤ fuel) (hp : p.Prime) (hpp : p * p ≤ X) :
    ∃ a mem emitted n s,
      isqrt (env.sqrt X) fuel X = some a ∧ p ≤ a ∧
      p ∈ env.Mairsonsprimesieve a ∧
      sieve env fuel X (env.Mairsonsprimesieve a) = some mem ∧
      mem.counts[p * p]? = some 2 ∧ mem.products[p * p]? = some (p * p) ∧
      isSemiprimeIndex mem (p * p) = some true ∧
      main env fuel (some (X : Int)) none = some (Outcome.found emitted n s X) ∧
      p * p ∈ emitted := by
  have hX' : X < U32 := hX
  have hp2 := hp.two_le
  have hi1 : 1 ≤ p * p := Nat.mul_pos hp.pos hp.pos
  have hple : p ≤ Nat.sqrt X := Nat.le_sqrt.mpr hpp
  obtain ⟨mem, hm, hs, hc⟩ :=
    sieve_primeList env fuel X _ (by omega) hX' (by omega) hgood.2
  obtain ⟨h1, h2⟩ := hc (p * p) hi1 hpp
  obtain ⟨-, -, hsmooth, -⟩ := primeList_math X (p * p) _ hgood.2 hi1 hpp
  obtain ⟨h3, h4⟩ := hsmooth (fun q hq hqd => by
    have : q ∣ p := (Nat.Prime.dvd_mul hq).mp hqd |>.elim id id
    rw [(Nat.prime_dvd_prime_iff_eq hq hp).mp this]
    exact hple)
  rw [← h1, cardFactors_mul_primes p p hp hp] at h3
  rw [← h2] at h4
  have hcnt := Mem.counts_getElem? mem X (p * p) hs hpp
  have hprd := Mem.products_getElem? mem X (p * p) hs hpp
  rw [h3] at hcnt
  rw [h4] at hprd
  have htest : isSemiprimeIndex mem (p * p) = some true := by
    unfold isSemiprimeIndex
    rw [hcnt, hprd]
    simp only [Option.some.injEq]
    exact (isSemiprimeTest_eq_true 2 (p * p) (p * p)).mpr (Or.inl ⟨rfl, rfl⟩)
  refine ⟨Nat.sqrt X, mem, semiprimesUpTo X, (semiprimesUpTo X).length,
    (semiprimesUpTo X).sum, isqrt_eq_sqrt X hX' fuel _ (fun _ => hgood.1) hfuel, hple,
    (hgood.2.2 p).mpr ⟨hp, hple⟩, hm, hcnt, hprd, htest,
    main_spec env fuel X none hX4 hX' hgood hfuel, ?_⟩
  rw [mem_semiprimesUpTo X _ hX4]
  exact ⟨by nlinarith, hpp, cardFactors_mul_primes p p hp hp⟩

/-- C13 for `X = 10` and `p = 3`. -/
theorem C13_square_of_prime_witness :
    ∃ a mem emitted n s,
      isqrt (refEnv.sqrt 10) 12 10 = some a ∧ 3 ≤ a ∧
      3 ∈ refEnv.Mairsonsprimesieve a ∧
      sieve refEnv 12 10 (refEnv.Mairsonsprimesieve a) = some mem ∧
      mem.counts[3 * 3]? = some 2 ∧ mem.products[3 * 3]? = some (3 * 3) ∧
      isSemiprimeIndex mem (3 * 3) = some true ∧
      main refEnv 12 (some ((10 : Nat) : Int)) none = some (Outcome.found emitted n s 10) ∧
      3 * 3 ∈ emitted :=
  C13_square_of_prime refEnv 12 10 3 (by decide) (by decide) (refEnv_good 10 (by decide))
    (by decide) (by norm_num) (by decide)

/-- C14. The number theoretic invariant for the value `a` that the program's own
`isqrt` returns for `X`, for every `X < 2^32` and so for `4 ≤ X < 2^32`: for every `i`
with `1 ≤ i ≤ X` there are no two primes `q` and `r`, equal or not, both above `a`,
with `q * r` dividing `i`; the exponents of the primes above `a` in `i` add up to at
most 1. -/
theorem C14_one_large_factor (seed fuel X : Nat) (hX : X < 2 ^ 32)
    (hseed : 2 ≤ X → 1 ≤ seed ∧ seed ≤ X) (hfuel : X + 2 ≤ fuel) :
    ∃ a, isqrt seed fuel X = some a ∧
      ∀ i, 1 ≤ i → i ≤ X →
        (∀ q r, q.Prime → r.Prime → a < q → a < r → ¬ q * r ∣ i) ∧
        ∑ q in i.primeFactors.filter (fun q => a < q), i.factorization q ≤ 1 := by
  refine ⟨Nat.sqrt X, isqrt_eq_sqrt X hX fuel seed hseed hfuel, ?_⟩
  intro i hi1 hiX
  refine ⟨fun q r _ _ hq hr => no_two_large X i q r hi1 hiX hq hr, ?_⟩
  have hfil : i.primeFactors.filter (fun q => Nat.sqrt X < q) =
      i.primeFactors.filter (fun p => ¬ p ≤ Nat.sqrt X) := by
    apply Finset.filter_congr
    intro q _
    omega
  rw [hfil]
  rcases large_factors X i hi1 hiX with h | ⟨q, h, hone⟩
  · rw [h, Finset.sum_empty]; omega
  · rw [h, Finset.sum_singleton, hone]

/-- C14 for `X = 10` from the seed `10`. -/
theorem C14_one_large_factor_witness :
    ∃ a, isqrt 10 12 10 = some a ∧
      ∀ i, 1 ≤ i → i ≤ 10 →
        (∀ q r, q.Prime → r.Prime → a < q → a < r → ¬ q * r ∣ i) ∧
        ∑ q in i.primeFactors.filter (fun q => a < q), i.factorization q ≤ 1 :=
  C14_one_large_factor 10 12 10 (by decide) (fun _ => ⟨by decide, by decide⟩) (by decide)

/-! ## The claims on overflow, termination and index safety -/

theorem entries_of_primes (primes : List Nat) (hP : ∀ p ∈ primes, p.Prime ∧ p < 2 ^ 32) :
    (∀ p ∈ primes, p.Prime) ∧ (∀ p ∈ primes, 2 ≤ p ∧ p < U32) :=
  ⟨fun p hp => (hP p hp).1, fun p hp => ⟨(hP p hp).1.two_le, (hP p hp).2⟩⟩

/-- C15. The 8 bit counter does not overflow: for every `X < 2^32` for which the sieve
runs, every list of distinct primes and every index `i ≤ X`, the number of runs of
line 77 that increment `counts[i]` is at most the binary logarithm of `i`, which is at
most 31 and below 256, so `counts[i]` after the sieve is that number itself, and reads
1 or 2 only when there were that many increments. -/
theorem C15_counter_no_overflow (env : Env) (fuel X i : Nat) (primes : List Nat)
    (hX1 : 1 ≤ X) (hX : X < 2 ^ 32) (hnd : primes.Nodup)
    (hP : ∀ p ∈ primes, p.Prime ∧ p < 2 ^ 32) (hfuel : X < fuel) (hi : i ≤ X) :
    ∃ mem0 T mem, initialMem env fuel X = some mem0 ∧ primesSteps X fuel primes = some T ∧
      mem0.visitAll T = some mem ∧ sieve env fuel X primes = some mem ∧
      (visitsOf i T).length ≤ Nat.log 2 i ∧ Nat.log 2 i ≤ 31 ∧
      (visitsOf i T).length < 256 ∧
      mem.counts[i]? = some (visitsOf i T).length ∧
      (mem.counts[i]? = some 1 ↔ (visitsOf i T).length = 1) ∧
      (mem.counts[i]? = some 2 ↔ (visitsOf i T).length = 2) := by
  have hX' : X < U32 := hX
  obtain ⟨hprime, hrange⟩ := entries_of_primes primes hP
  obtain ⟨mem0, T, mem, h0, hT, hm, hv, -, hs, hev, hvis, hc, -, -⟩ :=
    sieve_trace env fuel X primes hX1 hX' hfuel hrange
  have hlog31 : Nat.log 2 i ≤ 31 := log_two_le i (by omega)
  have hlen : (visitsOf i T).length ≤ Nat.log 2 i := by
    rcases Nat.eq_zero_or_pos i with h0i | hpos
    · rw [visitsOf_eq_nil i T (fun v hv => by have := hev v hv; omega)]
      exact Nat.zero_le _
    · rw [(hvis i hpos hi).1]
      exact (visits_le_log X fuel i primes hnd hprime hpos hi hfuel).1
  have hcnt : mem.counts[i]? = some (visitsOf i T).length := by
    rw [Mem.counts_getElem? mem X i hs hi, hc i, Nat.mod_eq_of_lt (by
      have : U8 = 256 := rfl
      omega)]
  refine ⟨mem0, T, mem, h0, hT, hv, hm, hlen, hlog31, by omega, hcnt, ?_, ?_⟩
  · rw [hcnt, Option.some.injEq]
  · rw [hcnt, Option.some.injEq]

/-- C15 for `X = 8`, the list `[3, 2]` and the index 8. -/
theorem C15_counter_no_overflow_witness :
    ∃ mem0 T mem, initialMem refEnv 9 8 = some mem0 ∧ primesSteps 8 9 [3, 2] = some T ∧
      mem0.visitAll T = some mem ∧ sieve refEnv 9 8 [3, 2] = some mem ∧
      (visitsOf 8 T).length ≤ Nat.log 2 8 ∧ Nat.log 2 8 ≤ 31 ∧
      (visitsOf 8 T).length < 256 ∧
      mem.counts[8]? = some (visitsOf 8 T).length ∧
      (mem.counts[8]? = some 1 ↔ (visitsOf 8 T).length = 1) ∧
      (mem.counts[8]? = some 2 ↔ (visitsOf 8 T).length = 2) :=
  C15_counter_no_overflow refEnv 9 8 8 [3, 2] (by decide) (by decide) (by decide)
    (fun p hp => by
      rcases List.mem_cons.mp hp with rfl | hp
      · exact ⟨by norm_num, by decide⟩
      · rcases List.mem_cons.mp hp with rfl | hp
        · exact ⟨by norm_num, by decide⟩
        · cases hp)
    (by decide) (by decide)

theorem isqrtSteps_length (n : Nat) :
    ∀ (f a : Nat) (r : List Nat × Nat), isqrtSteps n f a = some r → r.1.length < f := by
  intro f
  induction f with
  | zero => intro a r h; cases h
  | succ f ih =>
    intro a r h
    have hrec : (isqrtSteps n f ((a + n / a) % U64 / 2)).map (fun r => (a :: r.1, r.2)) =
        some r → r.1.length < f + 1 := by
      intro ht
      obtain ⟨r1, hr1, hr⟩ := Option.map_eq_some'.mp ht
      have := ih _ r1 hr1
      rw [← hr]
      simp only [List.length_cons]
      omega
    unfold isqrtSteps at h
    split at h
    · cases h
    · split at h
      · split at h
        · cases h
        · split at h
          · injection h with h
            rw [← h]
            simp
          · exact hrec h
      · exact hrec h

/-- C16. The loop of `isqrt` ends and is well defined: for every `n < 2^32` and every
starting estimate `s` with `1 ≤ s ≤ n` (so for `2 ≤ n`, where `isqrt` enters the loop),
the successive values of `ai` are finitely many, the last of them passes the test of
line 37 and is returned, and none before it does; every value is at least 1, so that
neither `n / ai` nor `n / (ai + 1)` divides by zero, and `ai + 1` and `ai + n / ai` stay
below `2^64`.  From whatever state, the loop returns a value only when the test holds
for it. -/
theorem C16_newton_loop (n s fuel : Nat) (hn : n < 2 ^ 32) (hs1 : 1 ≤ s) (hs2 : s ≤ n)
    (hfuel : n + 2 ≤ fuel) :
    ∃ l a, isqrtSteps n fuel s = some (l, a) ∧ isqrtLoop n fuel s = some a ∧
      l.length < fuel ∧
      (∀ b ∈ l ++ [a], 1 ≤ b ∧ b + 1 < 2 ^ 64 ∧ b + n / b < 2 ^ 64) ∧
      (∀ b ∈ l, ¬ (b ≤ n / b ∧ b + 1 > n / (b + 1))) ∧
      (a ≤ n / a ∧ a + 1 > n / (a + 1)) ∧
      (∀ fuel1 ai r, isqrtLoop n fuel1 ai = some r →
        r ≠ 0 ∧ r ≤ n / r ∧ (r + 1) % 2 ^ 64 ≠ 0 ∧ (r + 1) % 2 ^ 64 > n / ((r + 1) % 2 ^ 64)) := by
  have hn' : n < U32 := hn
  have h32 : U32 = 2 ^ 32 := rfl
  obtain ⟨l, hl, hb⟩ := isqrtSteps_spec n hn' fuel s hs1 hs2 hfuel
  have hloop : isqrtLoop n fuel s = some (Nat.sqrt n) := by
    rw [isqrtLoop_eq_steps, hl]; rfl
  have hpos : 0 < Nat.sqrt n := Nat.sqrt_pos.mpr (by omega)
  have hsle : Nat.sqrt n ≤ n := Nat.sqrt_le_self n
  refine ⟨l, Nat.sqrt n, hl, hloop, isqrtSteps_length n fuel s _ hl, ?_, ?_, (exit_iff n _ hpos).mpr rfl,
    fun fuel1 ai r h => isqrtLoop_exit n fuel1 ai r h⟩
  · intro b hbm
    have hb1 : 1 ≤ b ∧ b ≤ n := by
      rcases List.mem_append.mp hbm with hin | hin
      · exact ⟨(hb b hin).1, (hb b hin).2.1⟩
      · rw [List.mem_singleton] at hin
        rw [hin]; exact ⟨hpos, hsle⟩
    have hdiv : n / b ≤ n := Nat.div_le_self n b
    refine ⟨hb1.1, ?_, ?_⟩ <;> omega
  · intro b hin hbr
    exact (hb b hin).2.2 ((exit_iff n b (hb b hin).1).mp hbr)

/-- C16 for `n = 10` from the seed `1`: the values of `ai` are 1, 5, 3. -/
theorem C16_newton_loop_witness :
    isqrtSteps 10 12 1 = some ([1, 5], 3) ∧
    ∃ l a, isqrtSteps 10 12 1 = some (l, a) ∧ isqrtLoop 10 12 1 = some a ∧
      l.length < 12 ∧
      (∀ b ∈ l ++ [a], 1 ≤ b ∧ b + 1 < 2 ^ 64 ∧ b + 10 / b < 2 ^ 64) ∧
      (∀ b ∈ l, ¬ (b ≤ 10 / b ∧ b + 1 > 10 / (b + 1))) ∧
      (a ≤ 10 / a ∧ a + 1 > 10 / (a + 1)) ∧
      (∀ fuel1 ai r, isqrtLoop 10 fuel1 ai = some r →
        r ≠ 0 ∧ r ≤ 10 / r ∧ (r + 1) % 2 ^ 64 ≠ 0 ∧
          (r + 1) % 2 ^ 64 > 10 / ((r + 1) % 2 ^ 64)) :=
  ⟨by decide, C16_newton_loop 10 1 12 (by decide) (by decide) (by decide) (by decide)⟩

/-- C17. The engine ends for every bound in range: for `4 ≤ X ≤ 2^32 - 1` and every
prime list with entries between 2 and the integer square root of `X`, all four loops
return.  The loop of lines 72-83 is the pass over its trace `T`, in which every index
`j` occurs once for each prime power level that divides it, and at every run of
lines 77-79 the next values `primepowermultiple + primepower` and `primepower * p` are
below `2^64`.  The initialisation loop and the scan, which test `i == x` before the
increment, are the passes of their bodies over `1, ..., X` and over `4, ..., X`, each
index exactly once: the first leaves `products[i] = 1` for `1 ≤ i ≤ X`, the second
returns the indices of `4, ..., X` that pass the test of line 85, their number and
their sum. -/
theorem C17_engine_terminates (env : Env) (fuel X : Nat) (primes : List Nat) (jt : Bool)
    (hX4 : 4 ≤ X) (hX : X ≤ 2 ^ 32 - 1) (hP : ∀ p ∈ primes, 2 ≤ p ∧ p ≤ Nat.sqrt X)
    (hfuel : X < fuel) :
    ∃ mem0 T mem s,
      initialMem env fuel X = some mem0 ∧ primesSteps X fuel primes = some T ∧
      sieve env fuel X primes = some mem ∧ classify fuel X mem jt = some s ∧
      (∀ v ∈ T, v.prime ∈ primes ∧ v.primepower ≤ X ∧ v.index ≤ X ∧
        v.index + v.primepower < 2 ^ 64 ∧ v.primepower * v.prime < 2 ^ 64) ∧
      indexSteps X fuel 1 = some (List.range' 1 X) ∧
      indexSteps X fuel 4 = some (List.range' 4 (X - 3)) ∧
      (List.range' 1 X).Nodup ∧ (List.range' 4 (X - 3)).Nodup ∧
      (∀ i, i ∈ List.range' 1 X ↔ 1 ≤ i ∧ i ≤ X) ∧
      (∀ i, i ∈ List.range' 4 (X - 3) ↔ 4 ≤ i ∧ i ≤ X) ∧
      (∀ products, initProducts X fuel 1 products = writeOnes (List.range' 1 X) products) ∧
      (∀ i, 1 ≤ i → i ≤ X → (List.range' 1 X).count i = 1 ∧ mem0.products[i]? = some 1) ∧
      (∀ m, primesLoop X fuel primes m = m.visitAll T) ∧
      mem0.visitAll T = some mem ∧
      (∀ j, 1 ≤ j → j ≤ X → (visitsOf j T).length = visits X fuel primes j) ∧
      (∀ m sc, classifyLoop X m jt fuel 4 sc =
        Scan.scanAll m jt (List.range' 4 (X - 3)) sc) ∧
      (∀ i, 4 ≤ i → i ≤ X → (List.range' 4 (X - 3)).count i = 1) ∧
      s = { printed := if jt then [] else mem.hits X
            numsemiprimes := (mem.hits X).length
            sumsemiprimes := (mem.hits X).sum } := by
  have hX' : X < U32 := by
    have : (2 : Nat) ^ 32 - 1 < U32 := by decide
    omega
  have hsq : Nat.sqrt X ≤ X := Nat.sqrt_le_self X
  have h64 : U32 * U32 = U64 := by decide
  have hU64 : U64 = 2 ^ 64 := rfl
  have hrange : ∀ p ∈ primes, 2 ≤ p ∧ p < U32 := fun p hp =>
    ⟨(hP p hp).1, by have := (hP p hp).2; omega⟩
  obtain ⟨mem0, T, mem, h0, hT, hm, hvall, hs0, hs, hev, hvis, -, -, -⟩ :=
    sieve_trace env fuel X primes (by omega) hX' hfuel hrange
  have hp0 : ∀ j, 1 ≤ j → j ≤ X → mem0.prd j = 1 := by
    obtain ⟨m0, hm0, -, -, hp, -⟩ := initialMem_spec env fuel X (by omega) hX' (by omega)
    rw [h0] at hm0
    injection hm0 with hm0
    subst hm0
    exact hp
  have hi1 := indexSteps_eq X hX' fuel 1 (by omega) (by omega)
  have hi4 := indexSteps_eq X hX' fuel 4 hX4 (by omega)
  have e1 : X + 1 - 1 = X := by omega
  have e4 : X + 1 - 4 = X - 3 := by omega
  rw [e1] at hi1
  rw [e4] at hi4
  have hm1 : ∀ i, i ∈ List.range' 1 X ↔ 1 ≤ i ∧ i ≤ X := by
    intro i
    rw [List.mem_range'_1]; omega
  have hm4 : ∀ i, i ∈ List.range' 4 (X - 3) ↔ 4 ≤ i ∧ i ≤ X := by
    intro i
    rw [List.mem_range'_1]; omega
  refine ⟨mem0, T, mem, _, h0, hT, hm,
    classify_spec fuel X mem jt hX4 hX' (by omega) hs, ?_, hi1, hi4,
    List.nodup_range' 1 X, List.nodup_range' 4 (X - 3), hm1, hm4, ?_, ?_, ?_, hvall,
    fun j hj1 hjX => (hvis j hj1 hjX).1, ?_, ?_, rfl⟩
  · intro v hv
    obtain ⟨h1, h2, h3, h4, h5, -⟩ := hev v hv
    have hp32 := (hrange _ h1).2
    refine ⟨h1, by omega, h5, ?_, ?_⟩
    · have : U32 + U32 < U64 := by decide
      omega
    · calc v.primepower * v.prime < U32 * U32 := Nat.mul_lt_mul'' (by omega) hp32
        _ = 2 ^ 64 := h64
  · intro products
    rw [initProducts_eq_steps, hi1]
  · intro i hi1' hiX
    refine ⟨List.count_eq_one_of_mem (List.nodup_range' 1 X) ((hm1 i).mpr ⟨hi1', hiX⟩), ?_⟩
    rw [Mem.products_getElem? mem0 X i hs0 hiX, hp0 i hi1' hiX]
  · intro m
    rw [primesLoop_eq_steps, hT]
  · intro m sc
    rw [classifyLoop_eq_steps, hi4]
  · intro i hi4' hiX
    exact List.count_eq_one_of_mem (List.nodup_range' 4 (X - 3)) ((hm4 i).mpr ⟨hi4', hiX⟩)

/-- C17 for the largest bound, `X = 2^32 - 1`, and the list `[2, 3]`. -/
theorem C17_engine_terminates_witness :
    ∃ mem0 T mem s,
      initialMem refEnv 4294967296 4294967295 = some mem0 ∧
      primesSteps 4294967295 4294967296 [2, 3] = some T ∧
      sieve refEnv 4294967296 4294967295 [2, 3] = some mem ∧
      classify 4294967296 4294967295 mem false = some s ∧
      (∀ v ∈ T, v.prime ∈ [2, 3] ∧ v.primepower ≤ 4294967295 ∧ v.index ≤ 4294967295 ∧
        v.index + v.primepower < 2 ^ 64 ∧ v.primepower * v.prime < 2 ^ 64) ∧
      indexSteps 4294967295 4294967296 1 = some (List.range' 1 4294967295) ∧
      indexSteps 4294967295 4294967296 4 = some (List.range' 4 (4294967295 - 3)) ∧
      (List.range' 1 4294967295).Nodup ∧ (List.range' 4 (4294967295 - 3)).Nodup ∧
      (∀ i, i ∈ List.range' 1 4294967295 ↔ 1 ≤ i ∧ i ≤ 4294967295) ∧
      (∀ i, i ∈ List.range' 4 (4294967295 - 3) ↔ 4 ≤ i ∧ i ≤ 4294967295) ∧
      (∀ products, initProducts 4294967295 4294967296 1 products =
        writeOnes (List.range' 1 4294967295) products) ∧
      (∀ i, 1 ≤ i → i ≤ 4294967295 →
        (List.range' 1 4294967295).count i = 1 ∧ mem0.products[i]? = some 1) ∧
      (∀ m, primesLoop 4294967295 4294967296 [2, 3] m = m.visitAll T) ∧
      mem0.visitAll T = some mem ∧
      (∀ j, 1 ≤ j → j ≤ 4294967295 →
        (visitsOf j T).length = visits 4294967295 4294967296 [2, 3] j) ∧
      (∀ m sc, classifyLoop 4294967295 m false 4294967296 4 sc =
        Scan.scanAll m false (List.range' 4 (4294967295 - 3)) sc) ∧
      (∀ i, 4 ≤ i → i ≤ 4294967295 → (List.range' 4 (4294967295 - 3)).count i = 1) ∧
      s = { printed := if false then [] else mem.hits 4294967295
            numsemiprimes := (mem.hits 4294967295).length
            sumsemiprimes := (mem.hits 4294967295).sum } :=
  C17_engine_terminates refEnv 4294967296 4294967295 [2, 3] false (by decide) (by decide)
    (fun p hp => by
      rcases List.mem_cons.mp hp with rfl | hp
      · exact ⟨by decide, Nat.le_sqrt.mpr (by decide)⟩
      · rcases List.mem_cons.mp hp with rfl | hp
        · exact ⟨by decide, Nat.le_sqrt.mpr (by decide)⟩
        · cases hp)
    (by decide)

/-- C18. The 32 bit product does not wrap: for every `X < 2^32` for which the sieve
runs and every list of distinct primes, at every point of the sieve (after every
initial part of its trace) and for every index `m` with `1 ≤ m ≤ X`, `products[m]` is
the exact product of the primes that the runs of line 78 so far have multiplied into
it, it divides `m`, and so it is at most `m` and below `2^32`; at every run of line 78
the exact product `products[m] * p` divides `m` and is below `2^32`, so that the
`uint32_t` multiplication is exact. -/
theorem C18_products_no_overflow (env : Env) (fuel X : Nat) (primes : List Nat)
    (hX1 : 1 ≤ X) (hX : X < 2 ^ 32) (hnd : primes.Nodup)
    (hP : ∀ p ∈ primes, p.Prime ∧ p < 2 ^ 32) (hfuel : X < fuel) :
    ∃ mem0 T, initialMem env fuel X = some mem0 ∧ primesSteps X fuel primes = some T ∧
      sieve env fuel X primes = mem0.visitAll T ∧
      (∀ pre, pre <+: T → ∃ mem1, mem0.visitAll pre = some mem1 ∧
        ∀ m, 1 ≤ m → m ≤ X → ∃ q, mem1.products[m]? = some q ∧
          q = ((visitsOf m pre).map Visit.prime).prod ∧ q ∣ m ∧ q ≤ m ∧ q < 2 ^ 32) ∧
      (∀ pre v, pre ++ [v] <+: T → ∃ mem1 q, mem0.visitAll pre = some mem1 ∧
        mem1.products[v.index]? = some q ∧
        q * v.prime ∣ v.index ∧ q * v.prime < 2 ^ 32 ∧
        (q * v.prime) % 2 ^ 32 = q * v.prime) := by
  have hX' : X < U32 := hX
  have hU32 : U32 = 2 ^ 32 := rfl
  obtain ⟨hprime, hrange⟩ := entries_of_primes primes hP
  obtain ⟨mem0, T, mem, h0, hT, hm, hv, hs0, -, hev, hvis, -, -, -⟩ :=
    sieve_trace env fuel X primes hX1 hX' hfuel hrange
  have hp0' : ∀ j, 1 ≤ j → j ≤ X → mem0.prd j = 1 := by
    obtain ⟨m0, hm0, -, -, hp, -⟩ := initialMem_spec env fuel X hX1 hX' (by omega)
    rw [h0] at hm0
    injection hm0 with hm0
    subst hm0
    exact hp
  have hpart : ∀ pre, pre <+: T → ∃ mem1, mem0.visitAll pre = some mem1 ∧
      ∀ m, 1 ≤ m → m ≤ X → ∃ q, mem1.products[m]? = some q ∧
        q = ((visitsOf m pre).map Visit.prime).prod ∧ q ∣ m ∧ q ≤ m ∧ q < 2 ^ 32 := by
    intro pre hpre
    obtain ⟨mem1, h1, hs1, -, hp1⟩ := visitAll_spec X pre mem0 hs0
      (fun v hv => (hev v (mem_of_initial_part pre T hpre v hv)).2.2.2.2.1)
    refine ⟨mem1, h1, ?_⟩
    intro m hm1 hmX
    have hdvd : ((visitsOf m pre).map Visit.prime).prod ∣ m := by
      have h2 := prefix_prod_dvd _ _ (visitsOf_initial_part m pre T hpre)
      rw [(hvis m hm1 hmX).2] at h2
      exact dvd_trans h2 (visits_le_log X fuel m primes hnd hprime hm1 hmX hfuel).2
    have hle : ((visitsOf m pre).map Visit.prime).prod ≤ m := Nat.le_of_dvd (by omega) hdvd
    have hval := hp1 m 1 (by rw [hp0' m hm1 hmX]; rfl)
    rw [Nat.one_mul, Nat.mod_eq_of_lt (by omega)] at hval
    refine ⟨_, Mem.products_getElem? mem1 X m hs1 hmX, hval, ?_, ?_, ?_⟩
    · rw [hval]; exact hdvd
    · rw [hval]; exact hle
    · rw [hval]; omega
  refine ⟨mem0, T, h0, hT, by rw [hm, hv], hpart, ?_⟩
  intro pre v hpre
  have hvT : v ∈ T := mem_of_initial_part (pre ++ [v]) T hpre v (by simp)
  obtain ⟨-, hv2, hv3, hv4, hv5, -⟩ := hev v hvT
  have hidx1 : 1 ≤ v.index := by omega
  have hpre' : pre <+: T := List.IsPrefix.trans (List.prefix_append pre [v]) hpre
  obtain ⟨mem1, h1, hq1⟩ := hpart pre hpre'
  obtain ⟨q, hq, hqe, -, -, -⟩ := hq1 v.index hidx1 hv5
  obtain ⟨mem2, -, hq2⟩ := hpart (pre ++ [v]) hpre
  obtain ⟨q', -, hqe', hqd', -, hqlt'⟩ := hq2 v.index hidx1 hv5
  have hprod : q' = q * v.prime := by
    rw [hqe', hqe, visitsOf_append, visitsOf_cons, if_pos rfl]
    simp [visitsOf]
  rw [hprod] at hqd' hqlt'
  exact ⟨mem1, q, h1, hq, hqd', hqlt', Nat.mod_eq_of_lt hqlt'⟩

/-- C18 for `X = 12` and the list `[3, 2]`. -/
theorem C18_products_no_overflow_witness :
    ∃ mem0 T, initialMem refEnv 13 12 = some mem0 ∧ primesSteps 12 13 [3, 2] = some T ∧
      sieve refEnv 13 12 [3, 2] = mem0.visitAll T ∧
      (∀ pre, pre <+: T → ∃ mem1, mem0.visitAll pre = some mem1 ∧
        ∀ m, 1 ≤ m → m ≤ 12 → ∃ q, mem1.products[m]? = some q ∧
          q = ((visitsOf m pre).map Visit.prime).prod ∧ q ∣ m ∧ q ≤ m ∧ q < 2 ^ 32) ∧
      (∀ pre v, pre ++ [v] <+: T → ∃ mem1 q, mem0.visitAll pre = some mem1 ∧
        mem1.products[v.index]? = some q ∧
        q * v.prime ∣ v.index ∧ q * v.prime < 2 ^ 32 ∧
        (q * v.prime) % 2 ^ 32 = q * v.prime) :=
  C18_products_no_overflow refEnv 13 12 [3, 2] (by decide) (by decide) (by decide)
    (fun p hp => by
      rcases List.mem_cons.mp hp with rfl | hp
      · exact ⟨by norm_num, by decide⟩
      · rcases List.mem_cons.mp hp with rfl | hp
        · exact ⟨by norm_num, by decide⟩
        · cases hp)
    (by decide)

/-- C19. Index safety: for `4 ≤ X < 2^32` and every prime list with entries `≥ 2`, the
initialisation, the sieve and the scan return without an access outside the arrays of
`X + 1` cells; every index written by the sieve loops lies in `[2, X]`, so the indices
0 and 1 are never written by it and keep `counts[0] = counts[1] = 0`,
`products[1] = 1` and the unset `products[0]`; the initialisation writes the indices
`1, ..., X`, not 0; the scan reads the indices `4, ..., X`, so never `products[0]`. -/
theorem C19_index_safety (env : Env) (fuel X : Nat) (primes : List Nat) (jt : Bool)
    (hX4 : 4 ≤ X) (hX : X < 2 ^ 32) (hP : ∀ p ∈ primes, 2 ≤ p ∧ p < 2 ^ 32)
    (hfuel : X < fuel) :
    ∃ mem0 T mem s,
      indexSteps X fuel 1 = some (List.range' 1 X) ∧
      initialMem env fuel X = some mem0 ∧
      primesSteps X fuel primes = some T ∧
      mem0.visitAll T = some mem ∧ sieve env fuel X primes = some mem ∧
      indexSteps X fuel 4 = some (List.range' 4 (X - 3)) ∧
      Scan.scanAll mem jt (List.range' 4 (X - 3))
        { printed := [], numsemiprimes := 0, sumsemiprimes := 0 } = some s ∧
      classify fuel X mem jt = some s ∧
      mem.counts.length = X + 1 ∧ mem.products.length = X + 1 ∧
      (∀ i ∈ List.range' 1 X, 1 ≤ i ∧ i ≤ X) ∧
      (∀ v ∈ T, 2 ≤ v.index ∧ v.index ≤ X) ∧
      (∀ i ∈ List.range' 4 (X - 3), 4 ≤ i ∧ i ≤ X) ∧
      visitsOf 0 T = [] ∧ visitsOf 1 T = [] ∧
      0 ∉ List.range' 1 X ∧ 0 ∉ List.range' 4 (X - 3) ∧
      mem.counts[0]? = some 0 ∧ mem.counts[1]? = some 0 ∧
      mem.products[1]? = some 1 ∧ mem.products[0]? = some (env.malloc 0 % 2 ^ 32) := by
  have hX' : X < U32 := hX
  have hrange : ∀ p ∈ primes, 2 ≤ p ∧ p < U32 := hP
  obtain ⟨mem0, T, mem, h0, hT, hm, hv, -, hs, hev, -, hc, hp, hz⟩ :=
    sieve_trace env fuel X primes (by omega) hX' hfuel hrange
  have hi1 := indexSteps_eq X hX' fuel 1 (by omega) (by omega)
  have hi4 := indexSteps_eq X hX' fuel 4 hX4 (by omega)
  have e1 : X + 1 - 1 = X := by omega
  have e4 : X + 1 - 4 = X - 3 := by omega
  rw [e1] at hi1
  rw [e4] at hi4
  have hcl := classify_spec fuel X mem jt hX4 hX' (by omega) hs
  have hscan : Scan.scanAll mem jt (List.range' 4 (X - 3))
      { printed := [], numsemiprimes := 0, sumsemiprimes := 0 } =
      classify fuel X mem jt := by
    unfold classify
    rw [classifyLoop_eq_steps, hi4]
  have hv0 : visitsOf 0 T = [] :=
    visitsOf_eq_nil 0 T (fun v hv => by have := hev v hv; omega)
  have hv1 : visitsOf 1 T = [] :=
    visitsOf_eq_nil 1 T (fun v hv => by have := hev v hv; omega)
  have hc0 := hc 0
  have hc1 := hc 1
  have hp1 := hp 1 (by omega) (by omega)
  rw [hv0] at hc0
  rw [hv1] at hc1 hp1
  refine ⟨mem0, T, mem, _, hi1, h0, hT, hv, hm, hi4, by rw [hscan]; exact hcl, hcl,
    hs.1, hs.2, ?_, ?_, ?_, hv0, hv1, ?_, ?_, ?_, ?_, ?_, ?_⟩
  · intro i hi
    rw [List.mem_range'_1] at hi; omega
  · intro v hv
    have := hev v hv
    omega
  · intro i hi
    rw [List.mem_range'_1] at hi; omega
  · intro hi
    rw [List.mem_range'_1] at hi; omega
  · intro hi
    rw [List.mem_range'_1] at hi; omega
  · rw [Mem.counts_getElem? mem X 0 hs (by omega), hc0]; rfl
  · rw [Mem.counts_getElem? mem X 1 hs (by omega), hc1]; rfl
  · rw [Mem.products_getElem? mem X 1 hs (by omega), hp1]; rfl
  · rw [Mem.products_getElem? mem X 0 hs (by omega), hz]; rfl

/-- C19 for `X = 6` and the list `[4, 2, 7]`, whose entries are not all prime. -/
theorem C19_index_safety_witness :
    ∃ mem0 T mem s,
      indexSteps 6 7 1 = some (List.range' 1 6) ∧
      initialMem refEnv 7 6 = some mem0 ∧
      primesSteps 6 7 [4, 2, 7] = some T ∧
      mem0.visitAll T = some mem ∧ sieve refEnv 7 6 [4, 2, 7] = some mem ∧
      indexSteps 6 7 4 = some (List.range' 4 (6 - 3)) ∧
      Scan.scanAll mem false (List.range' 4 (6 - 3))
        { printed := [], numsemiprimes := 0, sumsemiprimes := 0 } = some s ∧
      classify 7 6 mem false = some s ∧
      mem.counts.length = 6 + 1 ∧ mem.products.length = 6 + 1 ∧
      (∀ i ∈ List.range' 1 6, 1 ≤ i ∧ i ≤ 6) ∧
      (∀ v ∈ T, 2 ≤ v.index ∧ v.index ≤ 6) ∧
      (∀ i ∈ List.range' 4 (6 - 3), 4 ≤ i ∧ i ≤ 6) ∧
      visitsOf 0 T = [] ∧ visitsOf 1 T = [] ∧
      0 ∉ List.range' 1 6 ∧ 0 ∉ List.range' 4 (6 - 3) ∧
      mem.counts[0]? = some 0 ∧ mem.counts[1]? = some 0 ∧
      mem.products[1]? = some 1 ∧ mem.products[0]? = some (refEnv.malloc 0 % 2 ^ 32) :=
  C19_index_safety refEnv 7 6 [4, 2, 7] false (by decide) (by decide)
    (fun p hp => by
      rcases List.mem_cons.mp hp with rfl | hp
      · exact ⟨by decide, by decide⟩
      · rcases List.mem_cons.mp hp with rfl | hp
        · exact ⟨by decide, by decide⟩
        · rcases List.mem_cons.mp hp with rfl | hp
          · exact ⟨by decide, by decide⟩
          · cases hp)
    (by decide)

end SemiprimeSieve
